import Mathlib

/-!
Verification of `cz::PolyChunkVector` (source/crazygaze/core/PolyChunkVector.h).

Shallow embedding: a chunk's raw memory is modelled as two association lists
keyed by byte offset — `headers` (offset ↦ stride value of the `Header` record
written there) and `data` (offset ↦ payload byte).  The list of live objects
constructed inside a chunk is tracked as `objs` (header offset ↦ dynamic type
tag); this models what the C++ virtual-destructor dispatch observes.  The
singly-linked chunk chain is a `List Chunk`; chunks are only ever appended, so
a list index is a faithful model of a chunk pointer, and `tail` / `lastHeader`
are index-based references exactly like `m_tail` / `m_lastHeader`.
Byte sizes `sizeof(T)`, `alignof(T)`, `sizeof(Header)` are parameters.
-/

namespace CzPoly

/-- sizeof/alignof parameters of the template instantiation. -/
structure Params where
  sizeofT : Nat
  alignofT : Nat
  sizeofHeader : Nat
deriving DecidableEq, Repr

/-- Facts about the parameters that C++ object layout guarantees:
all three are positive, and `sizeof(Header)` (declared `alignas(alignof(T))`)
and `sizeof(T)` are multiples of `alignof(T)`. -/
def WfParams (p : Params) : Prop :=
  1 ≤ p.sizeofT ∧ 1 ≤ p.alignofT ∧ 1 ≤ p.sizeofHeader ∧
  p.alignofT ∣ p.sizeofHeader ∧ p.alignofT ∣ p.sizeofT

instance (p : Params) : Decidable (WfParams p) := by
  unfold WfParams; infer_instance

/-- `cz::isMultipleOf` from Math.h: zero is not considered a multiple. -/
def isMultipleOf (a b : Nat) : Bool :=
  decide (a ≠ 0) && decide (a % b = 0)

/-- `cz::roundUpToMultipleOf` from Math.h. -/
def roundUpToMultipleOf (a b : Nat) : Nat :=
  if b = 0 then a else (a + b - 1) / b * b

/-- Association-list lookup (first match wins), modelling a read of the byte
at offset `k` from a chunk's raw memory. -/
def lookupA : List (Nat × Nat) → Nat → Option Nat
  | [], _ => none
  | (k', v) :: rest, k => if k' = k then some v else lookupA rest k

/-- Association-list write (shadowing any earlier entry). -/
def setA (l : List (Nat × Nat)) (k v : Nat) : List (Nat × Nat) :=
  (k, v) :: l

/-- Write the byte list `bs` into memory `d` starting at offset `off`. -/
def writeBytes (d : List (Nat × Nat)) : Nat → List Nat → List (Nat × Nat)
  | _, [] => d
  | off, b :: bs => writeBytes (setA d off b) (off + 1) bs

/-- One `Chunk` of the chain.  `id` models the malloc'ed address (fresh per
allocation), `cap`/`usedCap`/`skipFirstHeader`/implicit `next` are the C++
fields; `headers`, `data`, `objs` model the raw memory contents. -/
structure Chunk where
  id : Nat
  cap : Nat
  usedCap : Nat
  skipFirstHeader : Bool
  headers : List (Nat × Nat)
  data : List (Nat × Nat)
  objs : List (Nat × Nat)
deriving DecidableEq, Repr

/-- A freshly `malloc`ed chunk (`Chunk::Chunk(capacity)`). -/
def Chunk.fresh (id cap : Nat) : Chunk :=
  ⟨id, cap, 0, false, [], [], []⟩

/-- Junk chunk used for out-of-range reads (never hit from reachable states). -/
def cdefault : Chunk := Chunk.fresh 0 0

/-- The stride stored by the `Header` at offset `pos` of chunk `c`. -/
def strideAt (c : Chunk) (pos : Nat) : Nat :=
  (lookupA c.headers pos).getD 0

/-- Index-based list read, modelling following a chunk pointer. -/
def getNth : List Chunk → Nat → Chunk
  | [], _ => cdefault
  | c :: _, 0 => c
  | _ :: cs, n + 1 => getNth cs n

/-- Index-based list update, modelling a write through a chunk pointer. -/
def setNth : List Chunk → Nat → Chunk → List Chunk
  | [], _, _ => []
  | _ :: cs, 0, c => c :: cs
  | x :: cs, n + 1, c => x :: setNth cs n c

/-- The container state: `chunks` is the chain from `m_head`; `tail` and
`lastHeader` are the index-based models of `m_tail` and `m_lastHeader`
(`lastHeader = some (i, off)` points at the header at offset `off` of chunk
`i`); `nextId` models the allocator handing out fresh addresses. -/
structure PolyChunkVector where
  chunks : List Chunk
  tail : Option Nat
  lastHeader : Option (Nat × Nat)
  numElements : Nat
  nextId : Nat
deriving DecidableEq, Repr

/-- Default-constructed container: no chunks allocated. -/
def PolyChunkVector.init : PolyChunkVector :=
  ⟨[], none, none, 0, 0⟩

/-- Read chunk `i` of the chain. -/
def chunkAt (s : PolyChunkVector) (i : Nat) : Chunk :=
  getNth s.chunks i

/-- Replace chunk `i` of the chain. -/
def setChunk (s : PolyChunkVector) (i : Nat) (c : Chunk) : PolyChunkVector :=
  { s with chunks := setNth s.chunks i c }

/-- `InitialChunkCapacity = (sizeof(Header) + sizeof(T)) * 1024`. -/
def InitialChunkCapacity (p : Params) : Nat :=
  (p.sizeofHeader + p.sizeofT) * 1024

/-- Structural worker for `findFrom` (the fuel only bounds the walk; the
walk itself always stops at the end of the chain first). -/
def findFromAux (chunks : List Chunk) (need : Nat) : Nat → Nat → Option Nat
  | _, 0 => none
  | t, d + 1 =>
    if t + 1 < chunks.length then
      if need ≤ (getNth chunks (t + 1)).cap then some (t + 1)
      else findFromAux chunks need (t + 1) d
    else none

/-- The `while (m_tail->next)` search of `getFreeChunk`: starting after index
`t`, return the first chunk index whose capacity is at least `need`. -/
def findFrom (chunks : List Chunk) (t need : Nat) : Option Nat :=
  findFromAux chunks need t chunks.length

/-- `PolyChunkVector::getFreeChunk`: round the capacity up, drop
`m_lastHeader`, then either create the first chunk, adopt the first retained
chunk after the tail that is big enough, or append a brand-new chunk.
(When `m_tail` is null, `m_head` is also null in every reachable state, so
`m_head = m_tail = c` makes the fresh chunk the whole chain.) -/
def getFreeChunk (p : Params) (s : PolyChunkVector) (chunkCapacity : Nat) :
    PolyChunkVector :=
  let cc := roundUpToMultipleOf (max (p.sizeofHeader + p.sizeofT) chunkCapacity) p.alignofT
  let s1 : PolyChunkVector := { s with lastHeader := none }
  match s1.tail with
  | none =>
    { s1 with chunks := [Chunk.fresh s1.nextId cc], tail := some 0,
              nextId := s1.nextId + 1 }
  | some t =>
    match findFrom s1.chunks t cc with
    | some j => { s1 with tail := some j }
    | none =>
      { s1 with chunks := s1.chunks ++ [Chunk.fresh s1.nextId cc],
                tail := some s1.chunks.length, nextId := s1.nextId + 1 }

/-- `PolyChunkVector::getSpace`: pick/allocate a tail chunk with room for
`sizeof(Header) + size` bytes, write the header with `stride = totalSize` at
the tail's used-bytes mark, bump `usedCap`, record `m_lastHeader`, and return
`(state, chunk index, payload byte offset)` — the payload offset models the
returned `m_lastHeader + 1` pointer.  The final `none` branch is unreachable
(`getFreeChunk` always sets the tail). -/
def getSpace (p : Params) (s : PolyChunkVector) (size : Nat) :
    PolyChunkVector × Nat × Nat :=
  let totalSize := p.sizeofHeader + size
  let s1 :=
    match s.tail with
    | none => getFreeChunk p s (max totalSize (InitialChunkCapacity p))
    | some t =>
      if (chunkAt s t).cap < (chunkAt s t).usedCap + totalSize then
        getFreeChunk p s (max totalSize (chunkAt s t).cap)
      else s
  match s1.tail with
  | some t =>
    let c := chunkAt s1 t
    let hoff := c.usedCap
    let c' := { c with headers := setA c.headers hoff totalSize,
                       usedCap := c.usedCap + totalSize }
    ({ setChunk s1 t c' with lastHeader := some (t, hoff) },
     t, hoff + p.sizeofHeader)
  | none => (s1, 0, 0)

/-- `PolyChunkVector::emplace_back<Derived>`: get space for
`sizeof(Derived)` bytes, placement-construct the object there (modelled as
writing its `bytes` and registering a live object with dynamic type `tag` at
the header's offset), and bump `m_numElements`.  Returns the state plus the
(chunk, payload offset) address of the new object. -/
def emplace_back (p : Params) (s : PolyChunkVector) (szD tag : Nat)
    (bytes : List Nat) : PolyChunkVector × Nat × Nat :=
  match getSpace p s szD with
  | (s1, i, off) =>
    let c := chunkAt s1 i
    let c' := { c with data := writeBytes c.data off bytes,
                       objs := c.objs ++ [(off - p.sizeofHeader, tag)] }
    ({ setChunk s1 i c' with numElements := s1.numElements + 1 }, i, off)

/-- The `else` branch of `reserveOOB`: get fresh space for the aligned
payload and set `skipFirstHeader` on the (new) tail chunk; the pointer is
the one `getSpace` returned. -/
def reserveOOBfallback (p : Params) (s : PolyChunkVector) (alignedSize : Nat) :
    PolyChunkVector × Option (Nat × Nat) :=
  let r := getSpace p s alignedSize
  let t := r.1.tail.getD 0
  let tc := chunkAt r.1 t
  (setChunk r.1 t { tc with skipFirstHeader := true }, some r.2)

/-- `PolyChunkVector::reserveOOB`: size 0 returns null; otherwise round the
size up to `alignof(T)` and either absorb the payload into `m_lastHeader`'s
stride (when set and the aligned payload fits in the tail chunk) or fall back
to `getSpace` plus the skip-first-header mark. -/
def reserveOOB (p : Params) (s : PolyChunkVector) (size : Nat) :
    PolyChunkVector × Option (Nat × Nat) :=
  if size = 0 then (s, none)
  else
    let alignedSize := roundUpToMultipleOf size p.alignofT
    match s.lastHeader with
    | some lh =>
      let t := s.tail.getD 0
      let tc := chunkAt s t
      if tc.usedCap + alignedSize ≤ tc.cap then
        let ptrOff := tc.usedCap
        let hc := chunkAt s lh.1
        let hc' := { hc with
          headers := setA hc.headers lh.2 (strideAt hc lh.2 + alignedSize) }
        let s1 := setChunk s lh.1 hc'
        let tc1 := chunkAt s1 t
        let s2 := setChunk s1 t { tc1 with usedCap := tc1.usedCap + alignedSize }
        (s2, some (t, ptrOff))
      else reserveOOBfallback p s alignedSize
    | none => reserveOOBfallback p s alignedSize

/-- `PolyChunkVector::pushOOB`: reserve, then `memcpy` the bytes. -/
def pushOOB (p : Params) (s : PolyChunkVector) (bytes : List Nat) :
    PolyChunkVector × Option (Nat × Nat) :=
  match reserveOOB p s bytes.length with
  | (s1, none) => (s1, none)
  | (s1, some (i, off)) =>
    let c := chunkAt s1 i
    (setChunk s1 i { c with data := writeBytes c.data off bytes },
     some (i, off))

/-- `PolyChunkVector::pushOOBString(string_view)`: reserve `size + 1` bytes
and copy the characters plus a null terminator.  (The reserve size is never
zero, so the `none` branch is unreachable.) -/
def pushOOBString (p : Params) (s : PolyChunkVector) (str : List Nat) :
    PolyChunkVector × Option (Nat × Nat) :=
  match reserveOOB p s (str.length + 1) with
  | (s1, none) => (s1, none)
  | (s1, some (i, off)) =>
    let c := chunkAt s1 i
    (setChunk s1 i { c with data := writeBytes c.data off (str ++ [0]) },
     some (i, off))

/-- `PolyChunkVector::calcCapacity`: sum used and total capacity over the
whole chain. -/
def calcCapacity (s : PolyChunkVector) : Nat × Nat :=
  (s.chunks.foldl (fun a c => a + c.usedCap) 0,
   s.chunks.foldl (fun a c => a + c.cap) 0)

/-- `PolyChunkVector::size`. -/
def size (s : PolyChunkVector) : Nat :=
  s.numElements

/-- The destructive walk of `clear` inside one chunk: starting at `pos`,
record each header position visited (`obj->~T()` is invoked on the object
sitting right after each of these headers) and advance by the stored stride
while `pos < usedCap`.  Fuel bounds the loop; `usedCap + 1` steps suffice in
every reachable state because every stride is positive there (on a state with
a zero stride the C++ loop would not terminate at all). -/
def clearWalk (c : Chunk) : Nat → Nat → List Nat
  | _, 0 => []
  | pos, fuel + 1 =>
    if pos < c.usedCap then pos :: clearWalk c (pos + strideAt c pos) fuel
    else []

/-- Header positions whose objects `clear` destroys in chunk `c`
(`skipFirstHeader` makes the walk start after the leading OOB record). -/
def clearChunkVisits (c : Chunk) : List Nat :=
  let start := if c.skipFirstHeader then strideAt c 0 else 0
  clearWalk c start (c.usedCap + 1)

/-- All (chunk index, header position) pairs whose objects one `clear` call
destroys, chain order. -/
def clearDestroys (s : PolyChunkVector) : List (Nat × Nat) :=
  (List.range s.chunks.length).flatMap
    (fun i => (clearChunkVisits (chunkAt s i)).map (fun pos => (i, pos)))

/-- The per-chunk bookkeeping reset at the end of `clear`'s destructive pass:
`usedCap = 0`, `skipFirstHeader = false`; the raw memory is retained
(`POLYCHUNKVECTOR_CLEARMEM` is 0) but no object is alive any more. -/
def clearedChunk (c : Chunk) : Chunk :=
  { c with usedCap := 0, skipFirstHeader := false, objs := [] }

/-- `PolyChunkVector::clear(resetToOneChunk)`: destroy every element, reset
every chunk's bookkeeping, set `m_tail = m_head`, `m_lastHeader = null`,
`m_numElements = 0`; then, if a reset capacity was requested and the chain is
not already a single big-enough chunk, release all chunks
(`deleteAllChunks`) and allocate one fresh chunk via `getFreeChunk`. -/
def clear (p : Params) (s : PolyChunkVector) (resetToOneChunk : Nat) :
    PolyChunkVector :=
  let chunks := s.chunks.map clearedChunk
  let s1 : PolyChunkVector :=
    { s with chunks := chunks,
             tail := if chunks.isEmpty then none else some 0,
             lastHeader := none, numElements := 0 }
  if resetToOneChunk ≠ 0 then
    if s1.chunks.length = 1 ∧ resetToOneChunk ≤ (chunkAt s1 0).cap then s1
    else
      getFreeChunk p { s1 with chunks := [], tail := none, lastHeader := none }
        resetToOneChunk
  else s1

/-- `m_c->next` as an index: the chunk after `i`, or none at chain end. -/
def nextIdx (s : PolyChunkVector) (i : Nat) : Option Nat :=
  if i + 1 < s.chunks.length then some (i + 1) else none

/-- `m_head` as an index (null when no chunk was ever allocated). -/
def headIdx (s : PolyChunkVector) : Option Nat :=
  if 0 < s.chunks.length then some 0 else none

/-- `Iterator::findValid`: loop until the cursor is at a valid position —
chain end, or inside the used bytes and not sitting on a skipped leading OOB
header.  Fuel bounds the loop (each pass either returns, hops the leading
header once, or moves to the next chunk, so `2 * #chunks + 2` passes suffice
whenever strides are positive). -/
def findValid (s : PolyChunkVector) : Nat → Option Nat × Nat → Option Nat × Nat
  | 0, it => it
  | _ + 1, (none, pos) => (none, pos)
  | fuel + 1, (some i, pos) =>
    let c := chunkAt s i
    if pos < c.usedCap ∧ (0 < pos ∨ c.skipFirstHeader = false) then (some i, pos)
    else
      let pos1 := if pos < c.usedCap then pos + strideAt c pos else pos
      if c.usedCap ≤ pos1 then findValid s fuel (nextIdx s i, 0)
      else findValid s fuel (some i, pos1)

/-- Iterator `findValid` fuel that always suffices on reachable states. -/
def findFuel (s : PolyChunkVector) : Nat :=
  2 * s.chunks.length + 2

/-- `begin()`: start at `(m_head, 0)` and find the first valid position. -/
def beginIt (s : PolyChunkVector) : Option Nat × Nat :=
  findValid s (findFuel s) (headIdx s, 0)

/-- `operator++`: advance by the current header's stride, then find-valid. -/
def iterSucc (s : PolyChunkVector) : Option Nat × Nat → Option Nat × Nat
  | (some i, pos) =>
    findValid s (findFuel s) (some i, pos + strideAt (chunkAt s i) pos)
  | (none, pos) => (none, pos)

/-- Collect every (chunk index, header position) the iterator visits between
the given cursor and `end()`; dereferencing at `(i, pos)` yields the object
at byte offset `pos + sizeof(Header)` in chunk `i`.  Fuel bounds the number
of yielded positions. -/
def iterToList (s : PolyChunkVector) : Nat → Option Nat × Nat → List (Nat × Nat)
  | 0, _ => []
  | _ + 1, (none, _) => []
  | fuel + 1, (some i, pos) =>
    (i, pos) :: iterToList s fuel (iterSucc s (some i, pos))

/-- Total used bytes over the chain (fuel bound for a full traversal). -/
def sumUsed (s : PolyChunkVector) : Nat :=
  s.chunks.foldl (fun a c => a + c.usedCap) 0

/-- The whole begin-to-end traversal of the container. -/
def iterAll (s : PolyChunkVector) : List (Nat × Nat) :=
  iterToList s (sumUsed s + 1) (beginIt s)

/-- Header offsets of the live elements of chunk `c`, insertion order. -/
def chunkElems (c : Chunk) : List Nat :=
  c.objs.map Prod.fst

/-- Structural worker for `elemsFrom`. -/
def elemsFromAux (s : PolyChunkVector) : Nat → Nat → List (Nat × Nat)
  | _, 0 => []
  | i, d + 1 =>
    if i < s.chunks.length then
      (chunkElems (chunkAt s i)).map (fun off => (i, off)) ++
        elemsFromAux s (i + 1) d
    else []

/-- (chunk, header offset) of every live element from chunk `i` on. -/
def elemsFrom (s : PolyChunkVector) (i : Nat) : List (Nat × Nat) :=
  elemsFromAux s i (s.chunks.length + 1)

/-- (chunk, header offset) of every live element, insertion order. -/
def liveElems (s : PolyChunkVector) : List (Nat × Nat) :=
  elemsFrom s 0

/-- Structural worker for `fvSpec`. -/
def fvSpecAux (s : PolyChunkVector) : Nat → Nat → Option Nat × Nat
  | _, 0 => (none, 0)
  | i, d + 1 =>
    if i < s.chunks.length then
      match chunkElems (chunkAt s i) with
      | [] => fvSpecAux s (i + 1) d
      | off :: _ => (some i, off)
    else (none, 0)

/-- Where `findValid` lands when entering the chain at chunk `i` with offset
0: the first live element from chunk `i` on, or the end iterator. -/
def fvSpec (s : PolyChunkVector) (i : Nat) : Option Nat × Nat :=
  fvSpecAux s i (s.chunks.length + 1)

/-- The `some i` / `none` encoding of "chunk `i` if it exists". -/
def idxOpt (s : PolyChunkVector) (i : Nat) : Option Nat :=
  if i < s.chunks.length then some i else none

/-- One mutating container operation, with the data the C++ caller supplies:
an emplacement carries `sizeof(Derived)`, a dynamic-type tag and the object's
bytes; the OOB pushes carry the payload; `clearOp` carries
`resetToOneChunk`. -/
inductive Op where
  | emplace (szD tag : Nat) (bytes : List Nat)
  | oob (bytes : List Nat)
  | oobString (str : List Nat)
  | clearOp (reset : Nat)
deriving DecidableEq, Repr

/-- What the C++ type system guarantees about an operation's arguments: a
`Derived` object is at least as big as its `T` subobject, its size is a
multiple of `alignof(T)` (since `alignof(T) ≤ alignof(Derived) ≤ alignof(T)`
forces `alignof(Derived) = alignof(T)` and sizeof is always a multiple of
alignof), and construction writes exactly `sizeof(Derived)` bytes. -/
def WfOp (p : Params) : Op → Prop
  | .emplace szD _ bytes =>
    p.sizeofT ≤ szD ∧ p.alignofT ∣ szD ∧ bytes.length = szD
  | _ => True

instance (p : Params) (op : Op) : Decidable (WfOp p op) := by
  unfold WfOp; cases op <;> infer_instance

/-- Is this operation a `clear` call? -/
def Op.isClear : Op → Bool
  | .clearOp _ => true
  | _ => false

/-- Run one operation on the container. -/
def step (p : Params) (s : PolyChunkVector) : Op → PolyChunkVector
  | .emplace szD tag bytes => (emplace_back p s szD tag bytes).1
  | .oob bytes => (pushOOB p s bytes).1
  | .oobString str => (pushOOBString p s str).1
  | .clearOp r => clear p s r

/-- Run a list of operations. -/
def run (p : Params) (s : PolyChunkVector) : List Op → PolyChunkVector
  | [] => s
  | op :: ops => run p (step p s op) ops

/-- Container states reachable from the default-constructed container by
well-formed operations. -/
inductive Reachable (p : Params) : PolyChunkVector → Prop
  | init : Reachable p PolyChunkVector.init
  | step {s : PolyChunkVector} {op : Op} :
      Reachable p s → WfOp p op → Reachable p (step p s op)

/-- One record of a chunk's layout: a header at byte offset `off` storing
`stride`; `tag = some t` when the record holds a live element of dynamic
type `t`, `tag = none` for a chunk-leading OOB record. -/
structure Rec where
  off : Nat
  stride : Nat
  tag : Option Nat
deriving DecidableEq, Repr

/-- The records `rs` tile the byte range `[pos, e)` of a memory whose header
cells are `hs`: each record's header is really stored at its offset, strides
are at least `sizeof(Header)` and multiples of `alignof(T)`, and consecutive
records abut. -/
inductive ChainTo (p : Params) (hs : List (Nat × Nat)) : Nat → Nat → List Rec → Prop
  | nil (pos : Nat) : ChainTo p hs pos pos []
  | cons (pos e : Nat) (r : Rec) (rs : List Rec) :
      r.off = pos →
      lookupA hs pos = some r.stride →
      p.sizeofHeader ≤ r.stride →
      p.alignofT ∣ r.stride →
      ChainTo p hs (pos + r.stride) e rs →
      ChainTo p hs pos e (r :: rs)

/-- Full layout invariant of one chunk: its used region is tiled by records
`rs`; only the first record may be an OOB record; `skipFirstHeader` is set
exactly when the first record is OOB; and the live-object table lists exactly
the element records in offset order. -/
structure Layout (p : Params) (c : Chunk) (rs : List Rec) : Prop where
  chain : ChainTo p c.headers 0 c.usedCap rs
  restElems : ∀ r ∈ rs.drop 1, r.tag ≠ none
  skipIff : c.skipFirstHeader = true ↔ ∃ r rs', rs = r :: rs' ∧ r.tag = none
  objsEq : c.objs = rs.filterMap (fun r => r.tag.map (fun tg => (r.off, tg)))

/-- The whole-container invariant maintained by every operation. -/
structure Wf (p : Params) (s : PolyChunkVector) : Prop where
  tailLt : ∀ t, s.tail = some t → t < s.chunks.length
  tailNoneIff : s.tail = none ↔ s.chunks = []
  layout : ∀ i, i < s.chunks.length →
    ∃ rs, Layout p (chunkAt s i) rs ∧
      (∀ off, s.lastHeader = some (i, off) →
        ∃ r, rs.getLast? = some r ∧ r.off = off)
  afterTail : ∀ t, s.tail = some t → ∀ j, t < j → (chunkAt s j).usedCap = 0
  lastHeaderTail : ∀ i off, s.lastHeader = some (i, off) → s.tail = some i
  lastHeaderNone : s.lastHeader = none → ∀ t, s.tail = some t →
    (chunkAt s t).usedCap = 0
  caps : ∀ i, i < s.chunks.length →
    p.sizeofHeader + p.sizeofT ≤ (chunkAt s i).cap ∧
    (chunkAt s i).usedCap ≤ (chunkAt s i).cap

/-- Reachable state for adoption scenarios: chunk 0 full-ish (12 of 16 bytes
used), chunk 1 retained and empty after a non-destructive clear. -/
def sExAdopt : PolyChunkVector :=
  run (⟨4, 4, 8⟩ : Params) PolyChunkVector.init
    [.clearOp 16, .emplace 4 1 [1, 1, 1, 1], .emplace 4 2 [2, 2, 2, 2],
     .clearOp 0, .emplace 4 3 [3, 3, 3, 3]]

/-- Example parameters for concrete instantiations: `sizeof(T) = 4`,
`alignof(T) = 4`, `sizeof(Header) = 8` (a padded `size_t` stride). -/
def pEx : Params := ⟨4, 4, 8⟩

/-- Container shrunk to a single 16-byte chunk by `clear(16)`. -/
def sEx16 : PolyChunkVector := step pEx PolyChunkVector.init (.clearOp 16)

/-- One element of size 4 emplaced into the 16-byte chunk (12 bytes used). -/
def sEx1 : PolyChunkVector := step pEx sEx16 (.emplace 4 7 [1, 2, 3, 4])

/-- Container shrunk to a single 32-byte chunk, one element emplaced. -/
def sEx32 : PolyChunkVector :=
  step pEx (step pEx PolyChunkVector.init (.clearOp 32)) (.emplace 4 7 [1, 2, 3, 4])

/-- Address stability between two states: every chunk of `s` still exists at
the same chain position in `s'`, with the same identity (`id` models the
`malloc` address, `cap` the allocation size — so the chunk is neither
reallocated nor resized), its used region only grows, every byte inside the
old used region is unmodified, and its live objects are a stable prefix of
the new ones. -/
def Preserves (s s' : PolyChunkVector) : Prop :=
  s.chunks.length ≤ s'.chunks.length ∧
  ∀ i, i < s.chunks.length →
    (chunkAt s' i).id = (chunkAt s i).id ∧
    (chunkAt s' i).cap = (chunkAt s i).cap ∧
    (chunkAt s i).usedCap ≤ (chunkAt s' i).usedCap ∧
    (∀ off, off < (chunkAt s i).usedCap →
      lookupA (chunkAt s' i).data off = lookupA (chunkAt s i).data off) ∧
    (chunkAt s' i).objs.take (chunkAt s i).objs.length = (chunkAt s i).objs

/-! ### Basic lemmas -/

theorem getNth_setNth_eq (l : List Chunk) (j : Nat) (c : Chunk)
    (h : j < l.length) : getNth (setNth l j c) j = c := by
  induction l generalizing j with
  | nil => simp at h
  | cons x xs ih =>
    cases j with
    | zero => rfl
    | succ n => exact ih n (by simpa using h)

theorem getNth_setNth_ne (l : List Chunk) (i j : Nat) (c : Chunk)
    (h : i ≠ j) : getNth (setNth l j c) i = getNth l i := by
  induction l generalizing i j with
  | nil => rfl
  | cons x xs ih =>
    cases j with
    | zero => cases i with
      | zero => exact absurd rfl h
      | succ n => rfl
    | succ m => cases i with
      | zero => rfl
      | succ n => exact ih n m (fun hnm => h (by omega))

theorem length_setNth (l : List Chunk) (j : Nat) (c : Chunk) :
    (setNth l j c).length = l.length := by
  induction l generalizing j with
  | nil => rfl
  | cons x xs ih => cases j with
    | zero => rfl
    | succ m => simp [setNth, ih m]

theorem getNth_append_lt (l l' : List Chunk) (i : Nat) (h : i < l.length) :
    getNth (l ++ l') i = getNth l i := by
  induction l generalizing i with
  | nil => simp at h
  | cons x xs ih =>
    cases i with
    | zero => rfl
    | succ n => exact ih n (by simpa using h)

theorem getNth_append_right (l l' : List Chunk) (k : Nat) :
    getNth (l ++ l') (l.length + k) = getNth l' k := by
  induction l with
  | nil => simp
  | cons x xs ih => simpa [Nat.succ_add] using ih

theorem getNth_ge (l : List Chunk) (i : Nat) (h : l.length ≤ i) :
    getNth l i = cdefault := by
  induction l generalizing i with
  | nil => rfl
  | cons x xs ih =>
    cases i with
    | zero => simp at h
    | succ n => exact ih n (by simpa using h)

theorem lookupA_setA_eq (l : List (Nat × Nat)) (k v : Nat) :
    lookupA (setA l k v) k = some v := by
  simp [setA, lookupA]

theorem lookupA_setA_ne (l : List (Nat × Nat)) (k k' v : Nat) (h : k' ≠ k) :
    lookupA (setA l k v) k' = lookupA l k' := by
  simp only [setA, lookupA]
  rw [if_neg (fun he => h he.symm)]

theorem lookupA_writeBytes_lt (d : List (Nat × Nat)) (off : Nat)
    (bs : List Nat) (k : Nat) (h : k < off) :
    lookupA (writeBytes d off bs) k = lookupA d k := by
  induction bs generalizing d off with
  | nil => rfl
  | cons b bs ih =>
    rw [writeBytes, ih _ _ (by omega), lookupA_setA_ne _ _ _ _ (by omega)]

theorem roundUp_ge (a b : Nat) (hb : 0 < b) : a ≤ roundUpToMultipleOf a b := by
  unfold roundUpToMultipleOf
  rw [if_neg (by omega)]
  have h1 := Nat.div_add_mod (a + b - 1) b
  have h2 : (a + b - 1) % b < b := Nat.mod_lt _ hb
  have h3 : (a + b - 1) / b * b = b * ((a + b - 1) / b) := Nat.mul_comm _ _
  omega

theorem dvd_roundUp (a b : Nat) (hb : 0 < b) : b ∣ roundUpToMultipleOf a b := by
  unfold roundUpToMultipleOf
  rw [if_neg (by omega)]
  exact Dvd.intro_left _ rfl

theorem roundUp_eq_self (a b : Nat) (hb : 0 < b) (h : b ∣ a) :
    roundUpToMultipleOf a b = a := by
  obtain ⟨k, rfl⟩ := h
  unfold roundUpToMultipleOf
  rw [if_neg (by omega)]
  rcases k with _ | k
  · have h0 : b * 0 + b - 1 = b - 1 := by omega
    rw [h0, Nat.div_eq_of_lt (by omega), Nat.zero_mul, Nat.mul_zero]
  · have h0 : b * (k + 1) + b - 1 = b * (k + 1) + (b - 1) := by omega
    rw [h0, Nat.mul_add_div hb, Nat.div_eq_of_lt (by omega)]
    ring

theorem roundUp_le (a b g : Nat) (hg : 0 < g) (hb : g ∣ b) (h : a ≤ b) :
    roundUpToMultipleOf a g ≤ b := by
  obtain ⟨k, rfl⟩ := hb
  unfold roundUpToMultipleOf
  rw [if_neg (by omega)]
  have : (a + g - 1) / g ≤ k := by
    rw [Nat.div_le_iff_le_mul_add_pred hg]
    calc a + g - 1 ≤ g * k + g - 1 := by omega
    _ ≤ g * k + (g - 1) := by omega
  calc (a + g - 1) / g * g ≤ k * g := Nat.mul_le_mul_right g this
  _ = g * k := Nat.mul_comm _ _

theorem setNth_append_len (l : List Chunk) (x c : Chunk) :
    setNth (l ++ [x]) l.length c = l ++ [c] := by
  induction l with
  | nil => rfl
  | cons y ys ih => simp [setNth, ih]

theorem chunkAt_setChunk_eq (s : PolyChunkVector) (j : Nat) (c : Chunk)
    (h : j < s.chunks.length) : chunkAt (setChunk s j c) j = c :=
  getNth_setNth_eq _ _ _ h

theorem chunkAt_setChunk_ne (s : PolyChunkVector) (i j : Nat) (c : Chunk)
    (h : i ≠ j) : chunkAt (setChunk s j c) i = chunkAt s i :=
  getNth_setNth_ne _ _ _ _ h

theorem findFromAux_none (chunks : List Chunk) (need : Nat) :
    ∀ d t, chunks.length - t ≤ d → findFromAux chunks need t d = none →
      ∀ k, t < k → k < chunks.length → (getNth chunks k).cap < need := by
  intro d
  induction d with
  | zero => intro t hd _ k hk1 hk2; omega
  | succ d ih =>
    intro t hd h k hk1 hk2
    rw [findFromAux] at h
    by_cases ht : t + 1 < chunks.length
    · rw [if_pos ht] at h
      by_cases hc : need ≤ (getNth chunks (t + 1)).cap
      · rw [if_pos hc] at h; exact absurd h (by simp)
      · rw [if_neg hc] at h
        rcases Nat.eq_or_lt_of_le hk1 with he | hlt
        · subst he; simpa using Nat.lt_of_not_le hc
        · by_cases hkt : k = t + 1
          · subst hkt; omega
          · exact ih (t + 1) (by omega) h k (by omega) hk2
    · omega

theorem findFrom_none (chunks : List Chunk) (need : Nat) :
    ∀ t, findFrom chunks t need = none →
      ∀ k, t < k → k < chunks.length → (getNth chunks k).cap < need :=
  fun t h => findFromAux_none chunks need chunks.length t (by omega) h

theorem findFromAux_some (chunks : List Chunk) (need : Nat) :
    ∀ d t j, findFromAux chunks need t d = some j →
      t < j ∧ j < chunks.length ∧ need ≤ (getNth chunks j).cap ∧
      ∀ k, t < k → k < j → (getNth chunks k).cap < need := by
  intro d
  induction d with
  | zero =>
    intro t j h
    exact absurd h (by rw [findFromAux]; simp)
  | succ d ih =>
    intro t j h
    rw [findFromAux] at h
    by_cases ht : t + 1 < chunks.length
    · rw [if_pos ht] at h
      by_cases hc : need ≤ (getNth chunks (t + 1)).cap
      · rw [if_pos hc] at h
        have hj : j = t + 1 := by simpa using h.symm
        subst hj
        exact ⟨by omega, ht, hc, fun k h1 h2 => by omega⟩
      · rw [if_neg hc] at h
        obtain ⟨a1, a2, a3, a4⟩ := ih (t + 1) j h
        refine ⟨by omega, a2, a3, fun k h1 h2 => ?_⟩
        by_cases hk : k = t + 1
        · subst hk; omega
        · exact a4 k (by omega) h2
    · rw [if_neg ht] at h
      exact absurd h (by simp)

theorem findFrom_some (chunks : List Chunk) (need : Nat) :
    ∀ t j, findFrom chunks t need = some j →
      t < j ∧ j < chunks.length ∧ need ≤ (getNth chunks j).cap ∧
      ∀ k, t < k → k < j → (getNth chunks k).cap < need :=
  fun t j h => findFromAux_some chunks need chunks.length t j h

/-- `getSpace` when no chunk exists yet (`m_tail == nullptr`): allocate the
first chunk and write the header at offset 0. -/
theorem getSpace_no_chunks (p : Params) (s : PolyChunkVector) (size : Nat)
    (ht : s.tail = none) :
    getSpace p s size =
      ({ chunks := [⟨s.nextId,
           roundUpToMultipleOf
             (max (p.sizeofHeader + p.sizeofT)
               (max (p.sizeofHeader + size) (InitialChunkCapacity p)))
             p.alignofT,
           p.sizeofHeader + size, false, [(0, p.sizeofHeader + size)], [], []⟩],
         tail := some 0, lastHeader := some (0, 0),
         numElements := s.numElements, nextId := s.nextId + 1 },
       0, p.sizeofHeader) := by
  simp [getSpace, getFreeChunk, ht, chunkAt, setChunk, getNth, setNth, setA,
    Chunk.fresh]

/-- `getSpace` when the tail chunk has room: write the header at the tail's
used-bytes mark. -/
theorem getSpace_fits (p : Params) (s : PolyChunkVector) (size t : Nat)
    (ht : s.tail = some t)
    (hfit : (chunkAt s t).usedCap + (p.sizeofHeader + size) ≤ (chunkAt s t).cap) :
    getSpace p s size =
      ({ setChunk s t
           { chunkAt s t with
             headers := setA (chunkAt s t).headers (chunkAt s t).usedCap
               (p.sizeofHeader + size),
             usedCap := (chunkAt s t).usedCap + (p.sizeofHeader + size) } with
         lastHeader := some (t, (chunkAt s t).usedCap) },
       t, (chunkAt s t).usedCap + p.sizeofHeader) := by
  simp only [getSpace, ht, if_neg (by omega : ¬ (chunkAt s t).cap < (chunkAt s t).usedCap + (p.sizeofHeader + size))]

/-- `getSpace` when the tail chunk is too small and a retained empty chunk
further down the chain is adopted as the new tail. -/
theorem getSpace_adopt (p : Params) (s : PolyChunkVector) (size t j : Nat)
    (ht : s.tail = some t)
    (hover : (chunkAt s t).cap < (chunkAt s t).usedCap + (p.sizeofHeader + size))
    (hfind : findFrom s.chunks t
      (roundUpToMultipleOf
        (max (p.sizeofHeader + p.sizeofT)
          (max (p.sizeofHeader + size) (chunkAt s t).cap)) p.alignofT) = some j) :
    getSpace p s size =
      ({ setChunk s j
           { chunkAt s j with
             headers := setA (chunkAt s j).headers (chunkAt s j).usedCap
               (p.sizeofHeader + size),
             usedCap := (chunkAt s j).usedCap + (p.sizeofHeader + size) } with
         tail := some j, lastHeader := some (j, (chunkAt s j).usedCap) },
       j, (chunkAt s j).usedCap + p.sizeofHeader) := by
  simp only [getSpace, getFreeChunk, ht, if_pos hover, hfind]
  simp [chunkAt, setChunk]

/-- `getSpace` when the tail chunk is too small and no retained chunk fits:
a brand-new chunk is appended at the end of the chain and becomes the tail. -/
theorem getSpace_append (p : Params) (s : PolyChunkVector) (size t : Nat)
    (ht : s.tail = some t)
    (hover : (chunkAt s t).cap < (chunkAt s t).usedCap + (p.sizeofHeader + size))
    (hfind : findFrom s.chunks t
      (roundUpToMultipleOf
        (max (p.sizeofHeader + p.sizeofT)
          (max (p.sizeofHeader + size) (chunkAt s t).cap)) p.alignofT) = none) :
    getSpace p s size =
      ({ chunks := s.chunks ++
           [⟨s.nextId,
             roundUpToMultipleOf
               (max (p.sizeofHeader + p.sizeofT)
                 (max (p.sizeofHeader + size) (chunkAt s t).cap)) p.alignofT,
             p.sizeofHeader + size, false, [(0, p.sizeofHeader + size)], [], []⟩],
         tail := some s.chunks.length, lastHeader := some (s.chunks.length, 0),
         numElements := s.numElements, nextId := s.nextId + 1 },
       s.chunks.length, p.sizeofHeader) := by
  simp only [getSpace, getFreeChunk, ht, if_pos hover, hfind]
  have h1 : chunkAt ({ s with
      chunks := s.chunks ++
        [Chunk.fresh s.nextId
          (roundUpToMultipleOf
            (max (p.sizeofHeader + p.sizeofT)
              (max (p.sizeofHeader + size) (chunkAt s t).cap)) p.alignofT)],
      tail := some s.chunks.length, lastHeader := none,
      nextId := s.nextId + 1 } : PolyChunkVector)
      s.chunks.length =
      Chunk.fresh s.nextId
        (roundUpToMultipleOf
          (max (p.sizeofHeader + p.sizeofT)
            (max (p.sizeofHeader + size) (chunkAt s t).cap)) p.alignofT) := by
    show getNth (s.chunks ++ [_]) (s.chunks.length + 0) = _
    rw [getNth_append_right]
    rfl
  simp only [h1]
  simp only [setChunk]
  rw [show s.chunks.length = (s.chunks).length from rfl]
  simp [setNth_append_len, Chunk.fresh, setA]

/-- Reading a chunk through `List.map clearedChunk` commutes with
`clearedChunk` (the default chunk is its own cleared form). -/
theorem getNth_map_cleared (l : List Chunk) (i : Nat) :
    getNth (l.map clearedChunk) i = clearedChunk (getNth l i) := by
  induction l generalizing i with
  | nil => cases i <;> rfl
  | cons x xs ih => cases i with
    | zero => rfl
    | succ n => simpa using ih n

/-- C10.  Zero-size OOB push: `reserveOOB(0)` (and hence `pushOOB` of an
empty span) returns a null pointer and leaves the whole container state —
chunks, used bytes, skip flags, `m_lastHeader`, element count, capacity —
untouched. -/
theorem claim_C10_zero_size_oob (p : Params) (s : PolyChunkVector) :
    reserveOOB p s 0 = (s, none) ∧
    pushOOB p s [] = (s, none) ∧
    step p s (.oob []) = s ∧
    calcCapacity (pushOOB p s []).1 = calcCapacity s ∧
    CzPoly.size (pushOOB p s []).1 = CzPoly.size s := by
  refine ⟨rfl, rfl, rfl, rfl, rfl⟩

/-- C9.  `clear(X)` with `X ≠ 0`: if the chain is exactly one chunk of
capacity at least `X`, nothing is freed or allocated (the state is just the
retained post-destruction state); otherwise every chunk is released and one
fresh chunk is allocated with capacity `X` rounded up to at least
`sizeof(Header) + sizeof(T)` and to a multiple of `alignof(T)` — in
particular a requested capacity at most one header plus one base object
yields exactly the minimum viable capacity. -/
theorem claim_C9_clear_reset (p : Params) (s : PolyChunkVector) (X : Nat)
    (hp : WfParams p) (hX : X ≠ 0) :
    (s.chunks.length = 1 ∧ X ≤ (chunkAt s 0).cap →
      clear p s X =
        { s with chunks := s.chunks.map clearedChunk, tail := some 0,
                 lastHeader := none, numElements := 0 }) ∧
    (¬(s.chunks.length = 1 ∧ X ≤ (chunkAt s 0).cap) →
      ∃ cap,
        clear p s X =
          { chunks := [Chunk.fresh s.nextId cap], tail := some 0,
            lastHeader := none, numElements := 0, nextId := s.nextId + 1 } ∧
        cap = roundUpToMultipleOf (max (p.sizeofHeader + p.sizeofT) X) p.alignofT ∧
        X ≤ cap ∧ p.sizeofHeader + p.sizeofT ≤ cap ∧ p.alignofT ∣ cap ∧
        (X ≤ p.sizeofHeader + p.sizeofT → cap = p.sizeofHeader + p.sizeofT)) := by
  obtain ⟨hT, hA, hH, hdH, hdT⟩ := hp
  have hcnd : ∀ tl : Option Nat,
      (({ s with
          chunks := s.chunks.map clearedChunk,
          tail := tl,
          lastHeader := none,
          numElements := 0 } : PolyChunkVector).chunks.length = 1 ∧
        X ≤ (chunkAt ({ s with
          chunks := s.chunks.map clearedChunk,
          tail := tl,
          lastHeader := none,
          numElements := 0 } : PolyChunkVector) 0).cap) ↔
      (s.chunks.length = 1 ∧ X ≤ (chunkAt s 0).cap) := by
    intro tl
    have hcap : chunkAt ({ s with
        chunks := s.chunks.map clearedChunk,
        tail := tl,
        lastHeader := none,
        numElements := 0 } : PolyChunkVector) 0 = clearedChunk (chunkAt s 0) :=
      getNth_map_cleared _ _
    rw [hcap]
    have hlen : ({ s with
        chunks := s.chunks.map clearedChunk,
        tail := tl,
        lastHeader := none,
        numElements := 0 } : PolyChunkVector).chunks.length = s.chunks.length := by
      simp
    rw [hlen]
    exact Iff.rfl
  constructor
  · rintro ⟨h1, h2⟩
    have hne : (s.chunks.map clearedChunk).isEmpty = false := by
      cases hcs : s.chunks with
      | nil => rw [hcs] at h1; simp at h1
      | cons a l => simp
    rw [clear, if_pos hX]
    simp only [hne, Bool.false_eq_true, if_false]
    rw [if_pos ((hcnd _).mpr ⟨h1, h2⟩)]
  · intro hcond
    refine ⟨roundUpToMultipleOf (max (p.sizeofHeader + p.sizeofT) X) p.alignofT,
      ?_, rfl, ?_, ?_, dvd_roundUp _ _ hA, ?_⟩
    · rw [clear, if_pos hX]
      rw [if_neg ((not_congr (hcnd _)).mpr hcond)]
      simp [getFreeChunk]
    · exact le_trans (le_max_right _ _) (roundUp_ge _ _ hA)
    · exact le_trans (le_max_left _ _) (roundUp_ge _ _ hA)
    · intro hXle
      rw [max_eq_left hXle, roundUp_eq_self _ _ hA (Nat.dvd_add hdH hdT)]

/-- C9 witness: at `sizeof(T) = 4`, `alignof(T) = 4`, `sizeof(Header) = 8`,
a `clear(16)` on an empty container allocates exactly one chunk of capacity
16, and a `clear(3)` allocates the minimum viable capacity 12. -/
theorem claim_C9_clear_reset_witness :
    clear (⟨4, 4, 8⟩ : Params) PolyChunkVector.init 16 =
      { chunks := [Chunk.fresh 0 16], tail := some 0, lastHeader := none,
        numElements := 0, nextId := 1 } ∧
    clear (⟨4, 4, 8⟩ : Params) PolyChunkVector.init 3 =
      { chunks := [Chunk.fresh 0 12], tail := some 0, lastHeader := none,
        numElements := 0, nextId := 1 } := by
  have h1 := (claim_C9_clear_reset ⟨4, 4, 8⟩ PolyChunkVector.init 16
    (by decide) (by decide)).2 (by decide)
  have h2 := (claim_C9_clear_reset ⟨4, 4, 8⟩ PolyChunkVector.init 3
    (by decide) (by decide)).2 (by decide)
  obtain ⟨c1, e1, hc1, -⟩ := h1
  obtain ⟨c2, e2, hc2, -⟩ := h2
  constructor
  · rw [e1, hc1]; decide
  · rw [e2, hc2]; decide

/-- C7.  Overflow chunk growth: when `emplace_back` needs
`totalSize = sizeof(Header) + sizeof(Derived)` bytes, the tail chunk lacks
room, and no retained chunk is adopted (`findFrom` misses), a brand-new
chunk (fresh allocation id) of capacity at least
`max(totalSize, tail.capacity)` is appended at the end of the chain and
becomes the new tail, while every pre-existing chunk — in particular the old
tail, its used bytes and contents — is left completely unchanged. -/
theorem claim_C7_overflow_new_chunk (p : Params) (s : PolyChunkVector)
    (szD tag t : Nat) (bytes : List Nat) (hp : WfParams p)
    (ht : s.tail = some t)
    (hover : (chunkAt s t).cap < (chunkAt s t).usedCap + (p.sizeofHeader + szD))
    (hfind : findFrom s.chunks t
      (roundUpToMultipleOf
        (max (p.sizeofHeader + p.sizeofT)
          (max (p.sizeofHeader + szD) (chunkAt s t).cap)) p.alignofT) = none) :
    ((emplace_back p s szD tag bytes).1.chunks.length = s.chunks.length + 1) ∧
    ((emplace_back p s szD tag bytes).1.tail = some s.chunks.length) ∧
    (∀ i, i < s.chunks.length →
      chunkAt (emplace_back p s szD tag bytes).1 i = chunkAt s i) ∧
    ((chunkAt (emplace_back p s szD tag bytes).1 s.chunks.length).id = s.nextId) ∧
    (max (p.sizeofHeader + szD) (chunkAt s t).cap ≤
      (chunkAt (emplace_back p s szD tag bytes).1 s.chunks.length).cap) := by
  obtain ⟨hT, hA, hH, hdH, hdT⟩ := hp
  rw [emplace_back, getSpace_append p s szD t ht hover hfind]
  have hat : ∀ (d : List (Nat × Nat)) (o : List (Nat × Nat)),
      chunkAt ({
        chunks := s.chunks ++
          [⟨s.nextId,
            roundUpToMultipleOf
              (max (p.sizeofHeader + p.sizeofT)
                (max (p.sizeofHeader + szD) (chunkAt s t).cap)) p.alignofT,
            p.sizeofHeader + szD, false, d, [], o⟩],
        tail := some s.chunks.length,
        lastHeader := some (s.chunks.length, 0),
        numElements := s.numElements,
        nextId := s.nextId + 1 } : PolyChunkVector) s.chunks.length =
      ⟨s.nextId,
        roundUpToMultipleOf
          (max (p.sizeofHeader + p.sizeofT)
            (max (p.sizeofHeader + szD) (chunkAt s t).cap)) p.alignofT,
        p.sizeofHeader + szD, false, d, [], o⟩ := by
    intro d o
    show getNth (s.chunks ++ [_]) (s.chunks.length + 0) = _
    rw [getNth_append_right]
    rfl
  simp only
  rw [hat]
  simp only [setChunk]
  rw [show s.chunks.length = (s.chunks).length from rfl, setNth_append_len]
  have hb : roundUpToMultipleOf
      (max (p.sizeofHeader + p.sizeofT)
        (max (p.sizeofHeader + szD) (chunkAt s t).cap)) p.alignofT ≥
      max (p.sizeofHeader + szD) (chunkAt s t).cap :=
    le_trans (le_max_right _ _) (roundUp_ge _ _ hA)
  refine ⟨by simp, trivial, ?_, ?_, ?_⟩
  · intro i hi
    show getNth (s.chunks ++ [_]) i = getNth s.chunks i
    exact getNth_append_lt _ _ _ hi
  · show (getNth (s.chunks ++ [_]) (s.chunks.length + 0)).id = s.nextId
    rw [getNth_append_right]
    rfl
  · show _ ≤ (getNth (s.chunks ++ [_]) (s.chunks.length + 0)).cap
    rw [getNth_append_right]
    exact hb

theorem setNth_setNth (l : List Chunk) (t : Nat) (a b : Chunk) :
    setNth (setNth l t a) t b = setNth l t b := by
  induction l generalizing t with
  | nil => rfl
  | cons x xs ih => cases t with
    | zero => rfl
    | succ n => simp [setNth, ih]

theorem setChunk_tail (s : PolyChunkVector) (i : Nat) (c : Chunk) :
    (setChunk s i c).tail = s.tail := rfl

theorem setChunk_lastHeader (s : PolyChunkVector) (i : Nat) (c : Chunk) :
    (setChunk s i c).lastHeader = s.lastHeader := rfl

theorem setChunk_setChunk (s : PolyChunkVector) (t : Nat) (a b : Chunk) :
    setChunk (setChunk s t a) t b = setChunk s t b := by
  simp [setChunk, setNth_setNth]

theorem setChunk_override (s1 : PolyChunkVector) (t : Nat) (a b : Chunk)
    (L : Option (Nat × Nat)) :
    setChunk ({ setChunk s1 t a with lastHeader := L }) t b =
    { setChunk s1 t b with lastHeader := L } := by
  simp [setChunk, setNth_setNth]

/-- C7 witness: with a single 16-byte chunk holding 12 used bytes, emplacing
a 4-byte element needs 12 more bytes, overflows, adopts nothing, and appends
a brand-new chunk that becomes the tail. -/
theorem claim_C7_overflow_new_chunk_witness :
    WfParams pEx ∧
    sEx1.tail = some 0 ∧
    (chunkAt sEx1 0).cap < (chunkAt sEx1 0).usedCap + (pEx.sizeofHeader + 4) ∧
    findFrom sEx1.chunks 0
      (roundUpToMultipleOf
        (max (pEx.sizeofHeader + pEx.sizeofT)
          (max (pEx.sizeofHeader + 4) (chunkAt sEx1 0).cap)) pEx.alignofT) = none ∧
    (emplace_back pEx sEx1 4 9 [5, 6, 7, 8]).1.chunks.length = sEx1.chunks.length + 1 ∧
    (emplace_back pEx sEx1 4 9 [5, 6, 7, 8]).1.tail = some sEx1.chunks.length :=
  ⟨by decide, by decide, by decide, by decide,
   (claim_C7_overflow_new_chunk pEx sEx1 4 9 0 [5, 6, 7, 8]
     (by decide) (by decide) (by decide) (by decide)).1,
   (claim_C7_overflow_new_chunk pEx sEx1 4 9 0 [5, 6, 7, 8]
     (by decide) (by decide) (by decide) (by decide)).2.1⟩

/-- C4.  OOB absorption: when `m_lastHeader` points at the header at offset
`hoff` of the tail chunk (which stores stride `st`) and the aligned payload
fits in the tail's remaining capacity, `reserveOOB` places the payload
exactly at the tail's current used-bytes mark, grows that chunk's `usedCap`
by exactly the aligned size, grows the last header's stride by exactly the
aligned size, writes no new header, touches no other chunk, and leaves
`m_lastHeader`, the tail and the element count unchanged — with no case
distinction between "between two elements" and "after the last element". -/
theorem claim_C4_oob_absorption (p : Params) (s : PolyChunkVector)
    (t hoff size st : Nat) (hp : WfParams p)
    (hlh : s.lastHeader = some (t, hoff))
    (ht : s.tail = some t)
    (htl : t < s.chunks.length)
    (hhd : lookupA (chunkAt s t).headers hoff = some st)
    (hsz : size ≠ 0)
    (hfit : (chunkAt s t).usedCap + roundUpToMultipleOf size p.alignofT ≤
      (chunkAt s t).cap) :
    reserveOOB p s size =
      (setChunk s t
        { chunkAt s t with
          headers := setA (chunkAt s t).headers hoff
            (st + roundUpToMultipleOf size p.alignofT),
          usedCap := (chunkAt s t).usedCap + roundUpToMultipleOf size p.alignofT },
       some (t, (chunkAt s t).usedCap)) ∧
    (chunkAt (reserveOOB p s size).1 t).usedCap =
      (chunkAt s t).usedCap + roundUpToMultipleOf size p.alignofT ∧
    lookupA (chunkAt (reserveOOB p s size).1 t).headers hoff =
      some (st + roundUpToMultipleOf size p.alignofT) ∧
    (∀ k, k ≠ hoff →
      lookupA (chunkAt (reserveOOB p s size).1 t).headers k =
      lookupA (chunkAt s t).headers k) ∧
    (∀ k, (lookupA (chunkAt (reserveOOB p s size).1 t).headers k).isSome =
      (lookupA (chunkAt s t).headers k).isSome) ∧
    (∀ j, j ≠ t → chunkAt (reserveOOB p s size).1 j = chunkAt s j) ∧
    (reserveOOB p s size).1.chunks.length = s.chunks.length ∧
    (reserveOOB p s size).1.lastHeader = s.lastHeader ∧
    (reserveOOB p s size).1.tail = s.tail ∧
    (reserveOOB p s size).1.numElements = s.numElements := by
  have hmain : reserveOOB p s size =
      (setChunk s t
        { chunkAt s t with
          headers := setA (chunkAt s t).headers hoff
            (st + roundUpToMultipleOf size p.alignofT),
          usedCap := (chunkAt s t).usedCap + roundUpToMultipleOf size p.alignofT },
       some (t, (chunkAt s t).usedCap)) := by
    rw [reserveOOB, if_neg hsz, hlh]
    simp only [ht, Option.getD_some]
    rw [if_pos hfit]
    simp only [strideAt, hhd, Option.getD_some]
    have h1 : chunkAt (setChunk s t
        { chunkAt s t with
          headers := setA (chunkAt s t).headers hoff
            (st + roundUpToMultipleOf size p.alignofT) }) t =
        { chunkAt s t with
          headers := setA (chunkAt s t).headers hoff
            (st + roundUpToMultipleOf size p.alignofT) } :=
      chunkAt_setChunk_eq _ _ _ htl
    rw [h1]
    simp only [setChunk, setNth_setNth]
  have hcek : chunkAt (reserveOOB p s size).1 t =
      { chunkAt s t with
        headers := setA (chunkAt s t).headers hoff
          (st + roundUpToMultipleOf size p.alignofT),
        usedCap := (chunkAt s t).usedCap + roundUpToMultipleOf size p.alignofT } := by
    rw [hmain]
    exact chunkAt_setChunk_eq _ _ _ htl
  refine ⟨hmain, ?_, ?_, ?_, ?_, ?_, ?_, ?_, ?_, ?_⟩
  · rw [hcek]
  · rw [hcek]
    exact lookupA_setA_eq _ _ _
  · intro k hk
    rw [hcek]
    exact lookupA_setA_ne _ _ _ _ hk
  · intro k
    rw [hcek]
    by_cases hk : k = hoff
    · subst hk
      rw [lookupA_setA_eq, hhd]
      rfl
    · rw [lookupA_setA_ne _ _ _ _ hk]
  · intro j hj
    rw [hmain]
    exact chunkAt_setChunk_ne _ _ _ _ hj
  · rw [hmain]
    exact length_setNth _ _ _
  · rw [hmain]; rfl
  · rw [hmain]; rfl
  · rw [hmain]; rfl

/-- C4 witness: on a 32-byte chunk with one element (12 bytes used, last
header at offset 0 with stride 12), pushing 1 OOB byte (aligned to 4)
places it at offset 12, grows the header's stride to 16 and `usedCap` to
16, and writes no new header. -/
theorem claim_C4_oob_absorption_witness :
    WfParams pEx ∧
    sEx32.lastHeader = some (0, 0) ∧
    sEx32.tail = some 0 ∧
    lookupA (chunkAt sEx32 0).headers 0 = some 12 ∧
    (chunkAt sEx32 0).usedCap + roundUpToMultipleOf 1 pEx.alignofT ≤
      (chunkAt sEx32 0).cap ∧
    (chunkAt (reserveOOB pEx sEx32 1).1 0).usedCap = 16 ∧
    lookupA (chunkAt (reserveOOB pEx sEx32 1).1 0).headers 0 = some 16 := by
  have h := claim_C4_oob_absorption pEx sEx32 0 0 1 12
    (by decide) (by decide) (by decide) (by decide) (by decide) (by decide)
    (by decide)
  exact ⟨by decide, by decide, by decide, by decide, by decide,
    by rw [h.2.1]; decide, by rw [h.2.2.1]; decide⟩

/-! ### ChainTo lemmas -/

theorem chainTo_head_off {p : Params} {hs : List (Nat × Nat)} {pos e : Nat}
    {r : Rec} {rs : List Rec} (h : ChainTo p hs pos e (r :: rs)) :
    r.off = pos := by
  cases h with
  | cons pos e r rs h1 h2 h3 h4 h5 => exact h1

theorem chainTo_le {p : Params} {hs : List (Nat × Nat)} {pos e : Nat}
    {rs : List Rec} (h : ChainTo p hs pos e rs) : pos ≤ e := by
  induction h with
  | nil => exact Nat.le_refl _
  | cons pos e r rs h1 h2 h3 h4 h5 ih => omega

theorem chainTo_len_le {p : Params} (hH : 1 ≤ p.sizeofHeader)
    {hs : List (Nat × Nat)} {pos e : Nat} {rs : List Rec}
    (h : ChainTo p hs pos e rs) : pos + rs.length ≤ e := by
  induction h with
  | nil => simp
  | cons pos e r rs h1 h2 h3 h4 h5 ih => simp; omega

theorem chainTo_nil_of_eq {p : Params} (hH : 1 ≤ p.sizeofHeader)
    {hs : List (Nat × Nat)} {pos : Nat} {rs : List Rec}
    (h : ChainTo p hs pos pos rs) : rs = [] := by
  cases h with
  | nil => rfl
  | cons pos e r rs h1 h2 h3 h4 h5 =>
    have := chainTo_le h5
    omega

theorem chainTo_append {p : Params} {hs : List (Nat × Nat)} {pos m e : Nat}
    {rs rs' : List Rec} (h1 : ChainTo p hs pos m rs)
    (h2 : ChainTo p hs m e rs') : ChainTo p hs pos e (rs ++ rs') := by
  induction h1 with
  | nil => exact h2
  | cons pos e' r rs ha hb hc hd he ih =>
    exact ChainTo.cons _ _ _ _ ha hb hc hd (ih h2)

theorem chainTo_bounds {p : Params} {hs : List (Nat × Nat)} {pos e : Nat}
    {rs : List Rec} (h : ChainTo p hs pos e rs) :
    ∀ r ∈ rs, pos ≤ r.off ∧ r.off + r.stride ≤ e := by
  induction h with
  | nil => simp
  | cons pos e r rs h1 h2 h3 h4 h5 ih =>
    intro r' hr'
    rcases List.mem_cons.mp hr' with he' | hm
    · subst he'
      exact ⟨by omega, by have := chainTo_le h5; omega⟩
    · have := ih r' hm
      omega

theorem chainTo_off_dvd {p : Params} {hs : List (Nat × Nat)} {pos e : Nat}
    {rs : List Rec} (h : ChainTo p hs pos e rs) (hd : p.alignofT ∣ pos) :
    ∀ r ∈ rs, p.alignofT ∣ r.off := by
  induction h with
  | nil => simp
  | cons pos e r rs h1 h2 h3 h4 h5 ih =>
    intro r' hr'
    rcases List.mem_cons.mp hr' with he' | hm
    · subst he'; rw [h1]; exact hd
    · exact ih (Nat.dvd_add hd h4) r' hm

theorem chainTo_stride_dvd {p : Params} {hs : List (Nat × Nat)} {pos e : Nat}
    {rs : List Rec} (h : ChainTo p hs pos e rs) :
    ∀ r ∈ rs, p.alignofT ∣ r.stride := by
  induction h with
  | nil => simp
  | cons pos e r rs h1 h2 h3 h4 h5 ih =>
    intro r' hr'
    rcases List.mem_cons.mp hr' with he' | hm
    · subst he'; exact h4
    · exact ih r' hm

theorem chainTo_stride_ge {p : Params} {hs : List (Nat × Nat)} {pos e : Nat}
    {rs : List Rec} (h : ChainTo p hs pos e rs) :
    ∀ r ∈ rs, p.sizeofHeader ≤ r.stride := by
  induction h with
  | nil => simp
  | cons pos e r rs h1 h2 h3 h4 h5 ih =>
    intro r' hr'
    rcases List.mem_cons.mp hr' with he' | hm
    · subst he'; exact h3
    · exact ih r' hm

theorem chainTo_lookup {p : Params} {hs : List (Nat × Nat)} {pos e : Nat}
    {rs : List Rec} (h : ChainTo p hs pos e rs) :
    ∀ r ∈ rs, lookupA hs r.off = some r.stride := by
  induction h with
  | nil => simp
  | cons pos e r rs h1 h2 h3 h4 h5 ih =>
    intro r' hr'
    rcases List.mem_cons.mp hr' with he' | hm
    · subst he'; rw [h1]; exact h2
    · exact ih r' hm

theorem chainTo_end_dvd {p : Params} {hs : List (Nat × Nat)} {pos e : Nat}
    {rs : List Rec} (h : ChainTo p hs pos e rs) (hd : p.alignofT ∣ pos) :
    p.alignofT ∣ e := by
  induction h with
  | nil => exact hd
  | cons pos e r rs h1 h2 h3 h4 h5 ih => exact ih (Nat.dvd_add hd h4)

theorem chainTo_stable {p : Params} {hs hs' : List (Nat × Nat)} {pos e : Nat}
    {rs : List Rec} (h : ChainTo p hs pos e rs)
    (hst : ∀ r ∈ rs, lookupA hs' r.off = lookupA hs r.off) :
    ChainTo p hs' pos e rs := by
  induction h with
  | nil => exact ChainTo.nil _
  | cons pos e r rs h1 h2 h3 h4 h5 ih =>
    refine ChainTo.cons _ _ _ _ h1 ?_ h3 h4 (ih fun r' hr' => hst r' (by simp [hr']))
    rw [← h1, hst r (by simp), h1, h2]

theorem chainTo_snoc_decomp {p : Params} {hs : List (Nat × Nat)} {pos e : Nat}
    {rs : List Rec} {r : Rec} (h : ChainTo p hs pos e (rs ++ [r])) :
    ChainTo p hs pos r.off rs ∧ lookupA hs r.off = some r.stride ∧
    p.sizeofHeader ≤ r.stride ∧ p.alignofT ∣ r.stride ∧ r.off + r.stride = e := by
  induction rs generalizing pos with
  | nil =>
    cases h with
    | cons pos e r' rs' h1 h2 h3 h4 h5 =>
      cases h5 with
      | nil =>
        exact ⟨by rw [h1]; exact ChainTo.nil _, by rw [h1]; exact h2, h3, h4,
          by omega⟩
  | cons x xs ih =>
    cases h with
    | cons pos e r' rs' h1 h2 h3 h4 h5 =>
      obtain ⟨a1, a2, a3, a4, a5⟩ := ih h5
      exact ⟨ChainTo.cons _ _ _ _ h1 h2 h3 h4 a1, a2, a3, a4, a5⟩

/-- Appending a fresh record at the end of a chain: the new header is
written at the old end mark, everything else untouched. -/
theorem chainTo_snoc {p : Params} (hH : 1 ≤ p.sizeofHeader)
    {hs : List (Nat × Nat)} {e : Nat}
    {rs : List Rec} (h : ChainTo p hs 0 e rs) (st : Nat) (tg : Option Nat)
    (hg : p.sizeofHeader ≤ st) (hdv : p.alignofT ∣ st) :
    ChainTo p (setA hs e st) 0 (e + st) (rs ++ [⟨e, st, tg⟩]) := by
  have hstable : ChainTo p (setA hs e st) 0 e rs := by
    refine chainTo_stable h fun r' hr' => ?_
    have hb := chainTo_bounds h r' hr'
    have hge := chainTo_stride_ge h r' hr'
    exact lookupA_setA_ne _ _ _ _ (by omega)
  refine chainTo_append hstable ?_
  refine ChainTo.cons _ _ _ _ rfl ?_ hg hdv (ChainTo.nil _)
  exact lookupA_setA_eq _ _ _

/-! ### Layout lemmas -/

/-- A chunk with no used bytes, no skip flag and no live objects has the
empty layout. -/
theorem layout_empty (p : Params) (c : Chunk) (hu : c.usedCap = 0)
    (hsk : c.skipFirstHeader = false) (ho : c.objs = []) : Layout p c [] := by
  refine ⟨?_, by simp, ?_, by simp [ho]⟩
  · rw [hu]; exact ChainTo.nil _
  · rw [hsk]
    simp

theorem layout_rs_empty {p : Params} (hH : 1 ≤ p.sizeofHeader) {c : Chunk}
    {rs : List Rec} (h : Layout p c rs) (hu : c.usedCap = 0) : rs = [] := by
  have := h.chain
  rw [hu] at this
  exact chainTo_nil_of_eq hH this

/-- A fresh chunk has the empty layout. -/
theorem layout_fresh (p : Params) (id cap : Nat) :
    Layout p (Chunk.fresh id cap) [] :=
  layout_empty p _ rfl rfl rfl

/-- A cleared chunk has the empty layout. -/
theorem layout_cleared (p : Params) (c : Chunk) :
    Layout p (clearedChunk c) [] :=
  layout_empty p _ rfl rfl rfl

/-- Writing a header for a new element record at the end of a chunk's used
region (the `getSpace` write followed by `emplace_back`'s construction)
extends the layout by one element record. -/
theorem layout_snoc_elem (p : Params) (hH : 1 ≤ p.sizeofHeader) (c : Chunk)
    (rs : List Rec) (h : Layout p c rs) (st tag : Nat) (d : List (Nat × Nat))
    (hg : p.sizeofHeader ≤ st) (hdv : p.alignofT ∣ st) :
    Layout p
      { c with headers := setA c.headers c.usedCap st,
               usedCap := c.usedCap + st, data := d,
               objs := c.objs ++ [(c.usedCap, tag)] }
      (rs ++ [⟨c.usedCap, st, some tag⟩]) := by
  obtain ⟨hch, hrest, hskip, hobjs⟩ := h
  refine ⟨chainTo_snoc hH hch st (some tag) hg hdv, ?_, ?_, ?_⟩
  · cases rs with
    | nil => simp
    | cons x xs =>
      intro r' hr'
      simp only [List.cons_append, List.drop_succ_cons, List.drop_zero] at hr'
      rcases List.mem_append.mp hr' with hm | hm
      · exact hrest r' (by simpa using hm)
      · simp at hm
        subst hm
        simp
  · show c.skipFirstHeader = true ↔ _
    rw [hskip]
    cases rs with
    | nil =>
      simp
    | cons x xs =>
      constructor
      · rintro ⟨r0, rs0, he, htg⟩
        have hx : r0 = x := by
          have := congrArg (fun l => l.head?) he
          simpa using this.symm
        exact ⟨x, xs ++ [⟨c.usedCap, st, some tag⟩], by simp, hx ▸ htg⟩
      · rintro ⟨r0, rs0, he, htg⟩
        have hx : r0 = x := by
          have := congrArg (fun l => l.head?) he
          simpa using this.symm
        exact ⟨x, xs, rfl, hx ▸ htg⟩
  · show c.objs ++ [(c.usedCap, tag)] = _
    rw [List.filterMap_append, hobjs]
    simp

/-- Writing a header whose stride covers only OOB bytes into an empty chunk
and marking the skip flag (the `reserveOOB` fallback) yields a layout with a
single OOB record. -/
theorem layout_oob_first (p : Params) (c : Chunk) (st : Nat)
    (hu : c.usedCap = 0) (ho : c.objs = []) (d : List (Nat × Nat))
    (hg : p.sizeofHeader ≤ st) (hdv : p.alignofT ∣ st) :
    Layout p
      { c with headers := setA c.headers c.usedCap st,
               usedCap := c.usedCap + st, data := d, skipFirstHeader := true }
      [⟨c.usedCap, st, none⟩] := by
  refine ⟨?_, by simp, ?_, ?_⟩
  · show ChainTo p (setA c.headers c.usedCap st) 0 (c.usedCap + st) _
    simp only [hu]
    refine ChainTo.cons _ _ _ _ rfl (lookupA_setA_eq _ _ _) hg hdv ?_
    exact ChainTo.nil _
  · simp
  · show c.objs = _
    simp [ho]

/-- Growing the stride of the last record of a layout by an aligned amount
(the `reserveOOB` absorb branch) preserves the layout shape. -/
theorem layout_grow_last (p : Params) (hH : 1 ≤ p.sizeofHeader) (c : Chunk)
    (rs : List Rec) (r : Rec) (h : Layout p c (rs ++ [r])) (a : Nat)
    (hdv : p.alignofT ∣ a) :
    Layout p
      { c with headers := setA c.headers r.off (r.stride + a),
               usedCap := c.usedCap + a }
      (rs ++ [{ r with stride := r.stride + a }]) := by
  obtain ⟨hch, hrest, hskip, hobjs⟩ := h
  obtain ⟨h1, h2, h3, h4, h5⟩ := chainTo_snoc_decomp hch
  refine ⟨?_, ?_, ?_, ?_⟩
  · have hstable : ChainTo p (setA c.headers r.off (r.stride + a)) 0 r.off rs := by
      refine chainTo_stable h1 fun r' hr' => ?_
      have hb := chainTo_bounds h1 r' hr'
      have hge := chainTo_stride_ge h1 r' hr'
      exact lookupA_setA_ne _ _ _ _ (by omega)
    refine chainTo_append hstable ?_
    refine ChainTo.cons _ _ _ _ rfl ?_ (by simp; omega) (Nat.dvd_add h4 hdv) ?_
    · exact lookupA_setA_eq _ _ _
    · show ChainTo p _ (r.off + (r.stride + a)) (c.usedCap + a) []
      have : r.off + (r.stride + a) = c.usedCap + a := by omega
      rw [this]
      exact ChainTo.nil _
  · cases rs with
    | nil => simp
    | cons x xs =>
      intro r' hr'
      simp only [List.cons_append, List.drop_succ_cons, List.drop_zero] at hr'
      rcases List.mem_append.mp hr' with hm | hm
      · exact hrest r' (by simp [hm])
      · simp at hm
        subst hm
        have : r.tag ≠ none := hrest r (by simp)
        simpa using this
  · show c.skipFirstHeader = true ↔ _
    rw [hskip]
    cases rs with
    | nil =>
      constructor
      · rintro ⟨r0, rs0, he, htg⟩
        have : r0 = r := by
          have := congrArg (fun l => l.head?) he
          simpa using this.symm
        exact ⟨_, _, rfl, by simp [← this, htg]⟩
      · rintro ⟨r0, rs0, he, htg⟩
        have : r0 = { r with stride := r.stride + a } := by
          have := congrArg (fun l => l.head?) he
          simpa using this.symm
        refine ⟨r, [], rfl, ?_⟩
        have htg' : ({ r with stride := r.stride + a } : Rec).tag = none := by
          rw [← this]; exact htg
        simpa using htg'
    | cons x xs =>
      constructor
      · rintro ⟨r0, rs0, he, htg⟩
        have hx : r0 = x := by
          have := congrArg (fun l => l.head?) he
          simpa using this.symm
        exact ⟨x, xs ++ [{ r with stride := r.stride + a }], by simp, hx ▸ htg⟩
      · rintro ⟨r0, rs0, he, htg⟩
        have hx : r0 = x := by
          have := congrArg (fun l => l.head?) he
          simpa using this.symm
        exact ⟨x, xs ++ [r], by simp, hx ▸ htg⟩
  · show c.objs = _
    rw [hobjs, List.filterMap_append, List.filterMap_append]
    cases htag : r.tag <;> simp [List.filterMap_cons, htag]

/-! ### Wf preservation -/

theorem setNth_ge (l : List Chunk) (i : Nat) (c : Chunk)
    (h : l.length ≤ i) : setNth l i c = l := by
  induction l generalizing i with
  | nil => rfl
  | cons x xs ih =>
    cases i with
    | zero => simp at h
    | succ n => simp [setNth, ih n (by simpa using h)]

/-- The default-constructed container satisfies the invariant. -/
theorem wf_init (p : Params) : Wf p PolyChunkVector.init := by
  refine ⟨?_, ?_, ?_, ?_, ?_, ?_, ?_⟩ <;>
    simp [PolyChunkVector.init, chunkAt, getNth, cdefault, Chunk.fresh]

/-- Writing only the raw `data` bytes of one chunk preserves the invariant
(the layout never looks at payload bytes). -/
theorem wf_set_data (p : Params) (s : PolyChunkVector) (i : Nat)
    (d : List (Nat × Nat)) (hw : Wf p s) :
    Wf p (setChunk s i { chunkAt s i with data := d }) := by
  obtain ⟨w1, w2, w3, w4, w5, w6, w7⟩ := hw
  by_cases hi : i < s.chunks.length
  case neg =>
    have : setChunk s i { chunkAt s i with data := d } = s := by
      show ({ s with chunks := setNth s.chunks i _ } : PolyChunkVector) = s
      rw [setNth_ge _ _ _ (by omega)]
    rw [this]
    exact ⟨w1, w2, w3, w4, w5, w6, w7⟩
  case pos =>
    have hlen : (setChunk s i { chunkAt s i with data := d }).chunks.length =
        s.chunks.length := length_setNth _ _ _
    have hat : ∀ j, chunkAt (setChunk s i { chunkAt s i with data := d }) j =
        if j = i then { chunkAt s i with data := d } else chunkAt s j := by
      intro j
      by_cases hj : j = i
      · subst hj
        rw [if_pos rfl]
        exact chunkAt_setChunk_eq _ _ _ hi
      · rw [if_neg hj]
        exact chunkAt_setChunk_ne _ _ _ _ hj
    refine ⟨fun t h => by rw [hlen]; exact w1 t h, ?_, ?_, ?_, w5, ?_, ?_⟩
    · show s.tail = none ↔ _
      rw [w2]
      constructor
      · intro h
        show setNth s.chunks i _ = []
        rw [h]
        rfl
      · intro h
        have h0 := congrArg List.length h
        simp only [List.length_nil] at h0
        rw [hlen] at h0
        exact List.length_eq_zero.mp h0
    · intro k hk
      rw [hlen] at hk
      obtain ⟨rs, hrs, hlast⟩ := w3 k hk
      rw [hat k]
      by_cases hki : k = i
      · subst hki
        rw [if_pos rfl]
        exact ⟨rs, ⟨hrs.chain, hrs.restElems, hrs.skipIff, hrs.objsEq⟩, hlast⟩
      · rw [if_neg hki]
        exact ⟨rs, hrs, hlast⟩
    · intro t h j hj
      rw [hat j]
      by_cases hji : j = i
      · subst hji
        rw [if_pos rfl]
        exact w4 t h j hj
      · rw [if_neg hji]
        exact w4 t h j hj
    · intro h t ht
      rw [hat t]
      by_cases hti : t = i
      · subst hti
        rw [if_pos rfl]
        exact w6 h t ht
      · rw [if_neg hti]
        exact w6 h t ht
    · intro k hk
      rw [hlen] at hk
      rw [hat k]
      by_cases hki : k = i
      · subst hki
        rw [if_pos rfl]
        exact w7 k hk
      · rw [if_neg hki]
        exact w7 k hk

/-- Core write lemma: starting from any post-chunk-selection state `s1`
whose tail chunk `t` has room, writing a header plus element (what
`getSpace`'s header write followed by `emplace_back`'s construction does)
yields a state satisfying the invariant. -/
theorem wf_emplace_write (p : Params) (s1 : PolyChunkVector)
    (t szD tag : Nat) (d : List (Nat × Nat)) (hp : WfParams p)
    (hdv : p.alignofT ∣ szD)
    (ht1 : s1.tail = some t) (htlen : t < s1.chunks.length)
    (hlay : ∀ i, i < s1.chunks.length → ∃ rs, Layout p (chunkAt s1 i) rs)
    (hafter : ∀ j, t < j → (chunkAt s1 j).usedCap = 0)
    (hcaps : ∀ i, i < s1.chunks.length →
      p.sizeofHeader + p.sizeofT ≤ (chunkAt s1 i).cap ∧
      (chunkAt s1 i).usedCap ≤ (chunkAt s1 i).cap)
    (hfit : (chunkAt s1 t).usedCap + (p.sizeofHeader + szD) ≤ (chunkAt s1 t).cap) :
    Wf p
      { setChunk s1 t
          { chunkAt s1 t with
            headers := setA (chunkAt s1 t).headers (chunkAt s1 t).usedCap
              (p.sizeofHeader + szD),
            usedCap := (chunkAt s1 t).usedCap + (p.sizeofHeader + szD),
            data := d,
            objs := (chunkAt s1 t).objs ++ [((chunkAt s1 t).usedCap, tag)] } with
        lastHeader := some (t, (chunkAt s1 t).usedCap),
        numElements := s1.numElements + 1 } := by
  obtain ⟨hT, hA, hH, hdH, hdT⟩ := hp
  set cfin : Chunk :=
    { chunkAt s1 t with
      headers := setA (chunkAt s1 t).headers (chunkAt s1 t).usedCap
        (p.sizeofHeader + szD),
      usedCap := (chunkAt s1 t).usedCap + (p.sizeofHeader + szD),
      data := d,
      objs := (chunkAt s1 t).objs ++ [((chunkAt s1 t).usedCap, tag)] } with hcfin
  have hat : ∀ j, j ≠ t →
      chunkAt ({ setChunk s1 t cfin with
        lastHeader := some (t, (chunkAt s1 t).usedCap),
        numElements := s1.numElements + 1 } : PolyChunkVector) j = chunkAt s1 j :=
    fun j hj => chunkAt_setChunk_ne _ _ _ _ hj
  have hatt : chunkAt ({ setChunk s1 t cfin with
      lastHeader := some (t, (chunkAt s1 t).usedCap),
      numElements := s1.numElements + 1 } : PolyChunkVector) t = cfin :=
    chunkAt_setChunk_eq _ _ _ htlen
  have hlen : ({ setChunk s1 t cfin with
      lastHeader := some (t, (chunkAt s1 t).usedCap),
      numElements := s1.numElements + 1 } : PolyChunkVector).chunks.length =
      s1.chunks.length := length_setNth _ _ _
  refine ⟨?_, ?_, ?_, ?_, ?_, ?_, ?_⟩
  · intro t' h'
    rw [hlen]
    have h2 : s1.tail = some t' := h'
    rw [ht1] at h2
    have htt : t' = t := by simpa using h2.symm
    omega
  · constructor
    · intro h
      have h2 : s1.tail = none := h
      rw [ht1] at h2
      exact absurd h2 (by simp)
    · intro h
      have h0 := congrArg List.length h
      simp only [List.length_nil] at h0
      rw [hlen] at h0
      omega
  · intro i hi
    rw [hlen] at hi
    by_cases hit : i = t
    · subst hit
      obtain ⟨rs, hrs⟩ := hlay i hi
      refine ⟨rs ++ [⟨(chunkAt s1 i).usedCap, p.sizeofHeader + szD, some tag⟩],
        ?_, ?_⟩
      · rw [hatt]
        exact layout_snoc_elem p hH _ rs hrs _ tag d (by omega)
          (Nat.dvd_add hdH hdv)
      · intro off hoff
        have h2 : some (i, (chunkAt s1 i).usedCap) = some (i, off) := hoff
        have : off = (chunkAt s1 i).usedCap := by
          have := Option.some.inj h2
          simpa using (Prod.mk.injEq _ _ _ _ ▸ this).2.symm
        subst this
        exact ⟨_, List.getLast?_concat _, rfl⟩
    · obtain ⟨rs, hrs⟩ := hlay i hi
      refine ⟨rs, by rw [hat i hit]; exact hrs, ?_⟩
      intro off hoff
      have h2 : some (t, (chunkAt s1 t).usedCap) = some (i, off) := hoff
      have : t = i := by
        have := Option.some.inj h2
        exact congrArg Prod.fst this
      exact absurd this.symm hit
  · intro t' h' j hj
    have h2 : s1.tail = some t' := h'
    rw [ht1] at h2
    have htt : t' = t := by simpa using h2.symm
    subst htt
    rw [hat j (by omega)]
    exact hafter j hj
  · intro i off h'
    have h2 : some (t, (chunkAt s1 t).usedCap) = some (i, off) := h'
    have hti : t = i := congrArg Prod.fst (Option.some.inj h2)
    show ({ setChunk s1 t cfin with
      lastHeader := some (t, (chunkAt s1 t).usedCap),
      numElements := s1.numElements + 1 } : PolyChunkVector).tail = some i
    have h3 : s1.tail = some i := by rw [ht1, hti]
    exact h3
  · intro h
    have h2 : some (t, (chunkAt s1 t).usedCap) = none := h
    exact absurd h2 (by simp)
  · intro i hi
    rw [hlen] at hi
    by_cases hit : i = t
    · subst hit
      rw [hatt]
      have := hcaps i hi
      refine ⟨?_, ?_⟩
      · show p.sizeofHeader + p.sizeofT ≤ (chunkAt s1 i).cap
        exact this.1
      · show (chunkAt s1 i).usedCap + (p.sizeofHeader + szD) ≤ (chunkAt s1 i).cap
        exact hfit
    · rw [hat i hit]
      exact hcaps i hi

/-- Characterization of `getSpace` on an invariant-satisfying state: there
is a post-selection state `s1` (same chunks with the tail possibly moved or
a fresh chunk created/appended) whose tail chunk has room, and `getSpace`
is exactly the header write into `s1`'s tail chunk. -/
theorem getSpace_spec (p : Params) (s : PolyChunkVector) (size : Nat)
    (hp : WfParams p) (hw : Wf p s) :
    ∃ s1 t,
      getSpace p s size =
        ({ setChunk s1 t
             { chunkAt s1 t with
               headers := setA (chunkAt s1 t).headers (chunkAt s1 t).usedCap
                 (p.sizeofHeader + size),
               usedCap := (chunkAt s1 t).usedCap + (p.sizeofHeader + size) } with
           lastHeader := some (t, (chunkAt s1 t).usedCap) },
         t, (chunkAt s1 t).usedCap + p.sizeofHeader) ∧
      s1.tail = some t ∧ t < s1.chunks.length ∧
      (∀ i, i < s1.chunks.length → ∃ rs, Layout p (chunkAt s1 i) rs) ∧
      (∀ j, t < j → (chunkAt s1 j).usedCap = 0) ∧
      (∀ i, i < s1.chunks.length →
        p.sizeofHeader + p.sizeofT ≤ (chunkAt s1 i).cap ∧
        (chunkAt s1 i).usedCap ≤ (chunkAt s1 i).cap) ∧
      (chunkAt s1 t).usedCap + (p.sizeofHeader + size) ≤ (chunkAt s1 t).cap ∧
      s1.numElements = s.numElements ∧
      ((∀ i, i < s.chunks.length → chunkAt s1 i = chunkAt s i) ∧
        s.chunks.length ≤ s1.chunks.length) ∧
      ((chunkAt s1 t).usedCap = 0 ∨
        (s1 = s ∧ s.tail = some t ∧
          (chunkAt s t).usedCap + (p.sizeofHeader + size) ≤ (chunkAt s t).cap)) := by
  obtain ⟨hT, hA, hH, hdH, hdT⟩ := hp
  cases htail : s.tail with
  | none =>
    refine ⟨{ s with
        chunks := [Chunk.fresh s.nextId
          (roundUpToMultipleOf
            (max (p.sizeofHeader + p.sizeofT)
              (max (p.sizeofHeader + size) (InitialChunkCapacity p)))
            p.alignofT)],
        tail := some 0, lastHeader := none, nextId := s.nextId + 1 },
      0, ?_, rfl, by simp, ?_, ?_, ?_, ?_, rfl, ⟨?_, ?_⟩, ?_⟩
    · rw [getSpace_no_chunks p s size htail]
      simp [setChunk, chunkAt, getNth, setNth, setA, Chunk.fresh]
    · intro i hi
      simp only [List.length_singleton] at hi
      have : i = 0 := by omega
      subst this
      exact ⟨[], layout_fresh p _ _⟩
    · intro j hj
      show (getNth [_] j).usedCap = 0
      cases j with
      | zero => omega
      | succ n =>
        rw [getNth_ge _ _ (by simp)]
        rfl
    · intro i hi
      simp only [List.length_singleton] at hi
      have : i = 0 := by omega
      subst this
      show p.sizeofHeader + p.sizeofT ≤ (Chunk.fresh _ _).cap ∧
        (Chunk.fresh _ _).usedCap ≤ (Chunk.fresh _ _).cap
      refine ⟨le_trans (le_max_left _ _) (roundUp_ge _ _ hA), by simp [Chunk.fresh]⟩
    · show (Chunk.fresh _ _).usedCap + _ ≤ (Chunk.fresh _ _).cap
      show 0 + (p.sizeofHeader + size) ≤ _
      rw [Nat.zero_add]
      exact le_trans (le_trans (le_max_left _ _) (le_max_right _ _))
        (roundUp_ge _ _ hA)
    · intro i hi
      rw [hw.tailNoneIff.mp htail] at hi
      exact absurd hi (by simp)
    · rw [hw.tailNoneIff.mp htail]
      simp
    · left
      show (getNth [_] 0).usedCap = 0
      rfl
  | some t =>
    by_cases hfit : (chunkAt s t).cap < (chunkAt s t).usedCap + (p.sizeofHeader + size)
    case neg =>
      refine ⟨s, t, ?_, htail, hw.tailLt t htail, ?_, hw.afterTail t htail,
        hw.caps, by omega, rfl, ⟨fun i hi => rfl, Nat.le_refl _⟩, ?_⟩
      · exact getSpace_fits p s size t htail (by omega)
      · exact fun i hi => ⟨(hw.layout i hi).choose, (hw.layout i hi).choose_spec.1⟩
      · exact Or.inr ⟨rfl, rfl, by omega⟩
    case pos =>
      cases hfind : findFrom s.chunks t
        (roundUpToMultipleOf
          (max (p.sizeofHeader + p.sizeofT)
            (max (p.sizeofHeader + size) (chunkAt s t).cap)) p.alignofT) with
      | some j =>
        obtain ⟨hj1, hj2, hj3, hj4⟩ := findFrom_some s.chunks _ t j hfind
        have huj : (chunkAt s j).usedCap = 0 := hw.afterTail t htail j hj1
        refine ⟨{ s with tail := some j, lastHeader := none }, j, ?_, rfl,
          hj2, ?_, ?_, hw.caps, ?_, rfl, ⟨fun i hi => rfl, Nat.le_refl _⟩,
          Or.inl huj⟩
        · rw [getSpace_adopt p s size t j htail hfit hfind]
          rfl
        · exact fun i hi => ⟨(hw.layout i hi).choose, (hw.layout i hi).choose_spec.1⟩
        · exact fun k hk => hw.afterTail t htail k (by omega)
        · show (chunkAt s j).usedCap + _ ≤ (chunkAt s j).cap
          rw [huj, Nat.zero_add]
          calc p.sizeofHeader + size
              ≤ max (p.sizeofHeader + size) (chunkAt s t).cap := le_max_left _ _
            _ ≤ max (p.sizeofHeader + p.sizeofT)
                (max (p.sizeofHeader + size) (chunkAt s t).cap) := le_max_right _ _
            _ ≤ roundUpToMultipleOf
                (max (p.sizeofHeader + p.sizeofT)
                  (max (p.sizeofHeader + size) (chunkAt s t).cap)) p.alignofT :=
                roundUp_ge _ _ hA
            _ ≤ (chunkAt s j).cap := hj3
      | none =>
        refine ⟨{ s with
            chunks := s.chunks ++
              [Chunk.fresh s.nextId
                (roundUpToMultipleOf
                  (max (p.sizeofHeader + p.sizeofT)
                    (max (p.sizeofHeader + size) (chunkAt s t).cap)) p.alignofT)],
            tail := some s.chunks.length, lastHeader := none,
            nextId := s.nextId + 1 },
          s.chunks.length, ?_, rfl, by simp, ?_, ?_, ?_, ?_, rfl,
          ⟨?_, by simp⟩, ?_⟩
        · rw [getSpace_append p s size t htail hfit hfind]
          have hfr : chunkAt ({ s with
              chunks := s.chunks ++
                [Chunk.fresh s.nextId
                  (roundUpToMultipleOf
                    (max (p.sizeofHeader + p.sizeofT)
                      (max (p.sizeofHeader + size) (chunkAt s t).cap)) p.alignofT)],
              tail := some s.chunks.length, lastHeader := none,
              nextId := s.nextId + 1 } : PolyChunkVector) s.chunks.length =
              Chunk.fresh s.nextId
                (roundUpToMultipleOf
                  (max (p.sizeofHeader + p.sizeofT)
                    (max (p.sizeofHeader + size) (chunkAt s t).cap)) p.alignofT) := by
            show getNth (s.chunks ++ [_]) (s.chunks.length + 0) = _
            rw [getNth_append_right]
            rfl
          rw [hfr]
          simp only [setChunk]
          rw [show s.chunks.length = (s.chunks).length from rfl, setNth_append_len]
          simp [Chunk.fresh, setA]
        · intro i hi
          simp only [List.length_append, List.length_singleton] at hi
          by_cases hilt : i < s.chunks.length
          · obtain ⟨rs, hrs⟩ := hw.layout i hilt
            refine ⟨rs, ?_⟩
            show Layout p (getNth (s.chunks ++ [_]) i) rs
            rw [getNth_append_lt _ _ _ hilt]
            exact hrs.1
          · have : i = s.chunks.length := by omega
            subst this
            refine ⟨[], ?_⟩
            show Layout p (getNth (s.chunks ++ [_]) (s.chunks.length + 0)) []
            rw [getNth_append_right]
            exact layout_fresh p _ _
        · intro j hj
          show (getNth (s.chunks ++ [_]) j).usedCap = 0
          rw [getNth_ge _ _ (by simp; omega)]
          rfl
        · intro i hi
          simp only [List.length_append, List.length_singleton] at hi
          by_cases hilt : i < s.chunks.length
          · have := hw.caps i hilt
            show p.sizeofHeader + p.sizeofT ≤ (getNth (s.chunks ++ [_]) i).cap ∧
              (getNth (s.chunks ++ [_]) i).usedCap ≤ (getNth (s.chunks ++ [_]) i).cap
            rw [getNth_append_lt _ _ _ hilt]
            exact this
          · have : i = s.chunks.length := by omega
            subst this
            show p.sizeofHeader + p.sizeofT ≤
                (getNth (s.chunks ++ [_]) (s.chunks.length + 0)).cap ∧
              (getNth (s.chunks ++ [_]) (s.chunks.length + 0)).usedCap ≤
                (getNth (s.chunks ++ [_]) (s.chunks.length + 0)).cap
            rw [getNth_append_right]
            exact ⟨le_trans (le_max_left _ _) (roundUp_ge _ _ hA),
              by simp [Chunk.fresh, getNth]⟩
        · show (getNth (s.chunks ++ [_]) (s.chunks.length + 0)).usedCap + _ ≤
            (getNth (s.chunks ++ [_]) (s.chunks.length + 0)).cap
          rw [getNth_append_right]
          show 0 + (p.sizeofHeader + size) ≤ _
          rw [Nat.zero_add]
          exact le_trans (le_trans (le_max_left _ _) (le_max_right _ _))
            (roundUp_ge _ _ hA)
        · intro i hi
          show getNth (s.chunks ++ [_]) i = getNth s.chunks i
          exact getNth_append_lt _ _ _ hi
        · left
          show (getNth (s.chunks ++ [_]) (s.chunks.length + 0)).usedCap = 0
          rw [getNth_append_right]
          rfl

/-- Core write lemma for the `reserveOOB` fallback: writing an OOB header
into the (empty) selected tail chunk and setting its skip flag preserves the
invariant. -/
theorem wf_oob_write (p : Params) (s1 : PolyChunkVector) (t a : Nat)
    (hp : WfParams p) (hdva : p.alignofT ∣ a)
    (ht1 : s1.tail = some t) (htlen : t < s1.chunks.length)
    (hlay : ∀ i, i < s1.chunks.length → ∃ rs, Layout p (chunkAt s1 i) rs)
    (hafter : ∀ j, t < j → (chunkAt s1 j).usedCap = 0)
    (hcaps : ∀ i, i < s1.chunks.length →
      p.sizeofHeader + p.sizeofT ≤ (chunkAt s1 i).cap ∧
      (chunkAt s1 i).usedCap ≤ (chunkAt s1 i).cap)
    (hfit : (chunkAt s1 t).usedCap + (p.sizeofHeader + a) ≤ (chunkAt s1 t).cap)
    (hu : (chunkAt s1 t).usedCap = 0) :
    Wf p
      { setChunk s1 t
          { chunkAt s1 t with
            headers := setA (chunkAt s1 t).headers (chunkAt s1 t).usedCap
              (p.sizeofHeader + a),
            usedCap := (chunkAt s1 t).usedCap + (p.sizeofHeader + a),
            skipFirstHeader := true } with
        lastHeader := some (t, (chunkAt s1 t).usedCap) } := by
  obtain ⟨hT, hA, hH, hdH, hdT⟩ := hp
  set cfin : Chunk :=
    { chunkAt s1 t with
      headers := setA (chunkAt s1 t).headers (chunkAt s1 t).usedCap
        (p.sizeofHeader + a),
      usedCap := (chunkAt s1 t).usedCap + (p.sizeofHeader + a),
      skipFirstHeader := true } with hcfin
  have hat : ∀ j, j ≠ t →
      chunkAt ({ setChunk s1 t cfin with
        lastHeader := some (t, (chunkAt s1 t).usedCap) } : PolyChunkVector) j =
        chunkAt s1 j :=
    fun j hj => chunkAt_setChunk_ne _ _ _ _ hj
  have hatt : chunkAt ({ setChunk s1 t cfin with
      lastHeader := some (t, (chunkAt s1 t).usedCap) } : PolyChunkVector) t =
      cfin :=
    chunkAt_setChunk_eq _ _ _ htlen
  have hlen : ({ setChunk s1 t cfin with
      lastHeader := some (t, (chunkAt s1 t).usedCap) } : PolyChunkVector).chunks.length =
      s1.chunks.length := length_setNth _ _ _
  have hobjs : (chunkAt s1 t).objs = [] := by
    obtain ⟨rs, hrs⟩ := hlay t htlen
    have := layout_rs_empty hH hrs hu
    subst this
    simpa using hrs.objsEq
  refine ⟨?_, ?_, ?_, ?_, ?_, ?_, ?_⟩
  · intro t' h'
    rw [hlen]
    have h2 : s1.tail = some t' := h'
    rw [ht1] at h2
    have htt : t' = t := by simpa using h2.symm
    omega
  · constructor
    · intro h
      have h2 : s1.tail = none := h
      rw [ht1] at h2
      exact absurd h2 (by simp)
    · intro h
      have h0 := congrArg List.length h
      simp only [List.length_nil] at h0
      rw [hlen] at h0
      omega
  · intro i hi
    rw [hlen] at hi
    by_cases hit : i = t
    · subst hit
      refine ⟨[⟨(chunkAt s1 i).usedCap, p.sizeofHeader + a, none⟩], ?_, ?_⟩
      · rw [hatt]
        exact layout_oob_first p (chunkAt s1 i) (p.sizeofHeader + a) hu hobjs
          (chunkAt s1 i).data (by omega) (Nat.dvd_add hdH hdva)
      · intro off hoff
        have h2 : some (i, (chunkAt s1 i).usedCap) = some (i, off) := hoff
        have : off = (chunkAt s1 i).usedCap := by
          have := Option.some.inj h2
          simpa using (Prod.mk.injEq _ _ _ _ ▸ this).2.symm
        subst this
        exact ⟨_, rfl, rfl⟩
    · obtain ⟨rs, hrs⟩ := hlay i hi
      refine ⟨rs, by rw [hat i hit]; exact hrs, ?_⟩
      intro off hoff
      have h2 : some (t, (chunkAt s1 t).usedCap) = some (i, off) := hoff
      have : t = i := congrArg Prod.fst (Option.some.inj h2)
      exact absurd this.symm hit
  · intro t' h' j hj
    have h2 : s1.tail = some t' := h'
    rw [ht1] at h2
    have htt : t' = t := by simpa using h2.symm
    subst htt
    rw [hat j (by omega)]
    exact hafter j hj
  · intro i off h'
    have h2 : some (t, (chunkAt s1 t).usedCap) = some (i, off) := h'
    have hti : t = i := congrArg Prod.fst (Option.some.inj h2)
    show ({ setChunk s1 t cfin with
      lastHeader := some (t, (chunkAt s1 t).usedCap) } : PolyChunkVector).tail =
      some i
    have h3 : s1.tail = some i := by rw [ht1, hti]
    exact h3
  · intro h
    have h2 : some (t, (chunkAt s1 t).usedCap) = none := h
    exact absurd h2 (by simp)
  · intro i hi
    rw [hlen] at hi
    by_cases hit : i = t
    · subst hit
      rw [hatt]
      refine ⟨?_, ?_⟩
      · show p.sizeofHeader + p.sizeofT ≤ (chunkAt s1 i).cap
        exact (hcaps i hi).1
      · show (chunkAt s1 i).usedCap + (p.sizeofHeader + a) ≤ (chunkAt s1 i).cap
        exact hfit
    · rw [hat i hit]
      exact hcaps i hi

/-- The `reserveOOB` absorb branch preserves the invariant: growing the last
header's stride and the tail's used bytes by the same aligned amount. -/
theorem wf_absorb (p : Params) (s : PolyChunkVector) (t off a : Nat)
    (hp : WfParams p) (hw : Wf p s)
    (hlh : s.lastHeader = some (t, off)) (ht : s.tail = some t)
    (hdva : p.alignofT ∣ a)
    (hfit : (chunkAt s t).usedCap + a ≤ (chunkAt s t).cap) :
    Wf p (setChunk s t
      { chunkAt s t with
        headers := setA (chunkAt s t).headers off
          (strideAt (chunkAt s t) off + a),
        usedCap := (chunkAt s t).usedCap + a }) := by
  obtain ⟨hT, hA, hH, hdH, hdT⟩ := hp
  have htlen : t < s.chunks.length := hw.tailLt t ht
  obtain ⟨rs, hrs, hlast⟩ := hw.layout t htlen
  obtain ⟨r, hgl, hroff⟩ := hlast off hlh
  obtain ⟨rs0, hrs0⟩ := List.getLast?_eq_some_iff.mp hgl
  subst hrs0
  have hstride : strideAt (chunkAt s t) off = r.stride := by
    have := chainTo_lookup hrs.chain r (by simp)
    rw [strideAt, ← hroff, this]
    rfl
  set cfin : Chunk :=
    { chunkAt s t with
      headers := setA (chunkAt s t).headers off
        (strideAt (chunkAt s t) off + a),
      usedCap := (chunkAt s t).usedCap + a } with hcfin
  have hat : ∀ j, j ≠ t → chunkAt (setChunk s t cfin) j = chunkAt s j :=
    fun j hj => chunkAt_setChunk_ne _ _ _ _ hj
  have hatt : chunkAt (setChunk s t cfin) t = cfin :=
    chunkAt_setChunk_eq _ _ _ htlen
  have hlen : (setChunk s t cfin).chunks.length = s.chunks.length :=
    length_setNth _ _ _
  refine ⟨?_, ?_, ?_, ?_, ?_, ?_, ?_⟩
  · intro t' h'
    rw [hlen]
    exact hw.tailLt t' h'
  · show s.tail = none ↔ _
    rw [ht]
    constructor
    · intro h; exact absurd h (by simp)
    · intro h
      have h0 := congrArg List.length h
      simp only [List.length_nil] at h0
      rw [hlen] at h0
      omega
  · intro i hi
    rw [hlen] at hi
    by_cases hit : i = t
    · subst hit
      refine ⟨rs0 ++ [{ r with stride := r.stride + a }], ?_, ?_⟩
      · rw [hatt, hcfin, hstride, ← hroff]
        exact layout_grow_last p hH _ rs0 r hrs a hdva
      · intro off' hoff'
        have h2 : s.lastHeader = some (i, off') := hoff'
        rw [hlh] at h2
        have : off = off' := by
          have := Option.some.inj h2
          simpa using (Prod.mk.injEq _ _ _ _ ▸ this).2
        subst this
        exact ⟨{ r with stride := r.stride + a }, List.getLast?_concat _, hroff⟩
    · obtain ⟨rs', hrs', hlast'⟩ := hw.layout i hi
      refine ⟨rs', by rw [hat i hit]; exact hrs', ?_⟩
      intro off' hoff'
      have h2 : s.lastHeader = some (i, off') := hoff'
      rw [hlh] at h2
      have : t = i := congrArg Prod.fst (Option.some.inj h2)
      exact absurd this.symm hit
  · intro t' h' j hj
    have h2 : s.tail = some t' := h'
    rw [ht] at h2
    have htt : t' = t := by simpa using h2.symm
    rw [hat j (by omega)]
    exact hw.afterTail t ht j (by omega)
  · intro i off' h'
    have h2 : s.lastHeader = some (i, off') := h'
    exact hw.lastHeaderTail i off' h2
  · intro h
    have h2 : s.lastHeader = none := h
    rw [hlh] at h2
    exact absurd h2 (by simp)
  · intro i hi
    rw [hlen] at hi
    by_cases hit : i = t
    · subst hit
      rw [hatt]
      refine ⟨?_, ?_⟩
      · show p.sizeofHeader + p.sizeofT ≤ (chunkAt s i).cap
        exact (hw.caps i hi).1
      · show (chunkAt s i).usedCap + a ≤ (chunkAt s i).cap
        exact hfit
    · rw [hat i hit]
      exact hw.caps i hi

/-- `emplace_back` preserves the invariant. -/
theorem wf_emplace (p : Params) (s : PolyChunkVector) (szD tag : Nat)
    (bytes : List Nat) (hp : WfParams p) (hw : Wf p s)
    (hdv : p.alignofT ∣ szD) :
    Wf p (emplace_back p s szD tag bytes).1 := by
  obtain ⟨s1, t, heq, ht1, htlen, hlay, hafter, hcaps, hfit, hnum, hpres, hdisj⟩ :=
    getSpace_spec p s szD hp hw
  have hkey := wf_emplace_write p s1 t szD tag
    (writeBytes (chunkAt s1 t).data ((chunkAt s1 t).usedCap + p.sizeofHeader)
      bytes) hp hdv ht1 htlen hlay hafter hcaps hfit
  rw [emplace_back, heq]
  have hceq : chunkAt ({ setChunk s1 t
      { chunkAt s1 t with
        headers := setA (chunkAt s1 t).headers (chunkAt s1 t).usedCap
          (p.sizeofHeader + szD),
        usedCap := (chunkAt s1 t).usedCap + (p.sizeofHeader + szD) } with
      lastHeader := some (t, (chunkAt s1 t).usedCap) } : PolyChunkVector) t =
      { chunkAt s1 t with
        headers := setA (chunkAt s1 t).headers (chunkAt s1 t).usedCap
          (p.sizeofHeader + szD),
        usedCap := (chunkAt s1 t).usedCap + (p.sizeofHeader + szD) } :=
    chunkAt_setChunk_eq _ _ _ htlen
  simp only [hceq]
  simp only [setChunk, setNth_setNth, Nat.add_sub_cancel]
  exact hkey

/-- Evaluation shape of the `reserveOOB` fallback: it is the skip-flag write
on the tail chunk of the state `getSpace` produced. -/
theorem fallback_shape (p : Params) (s : PolyChunkVector) (A : Nat)
    (R : PolyChunkVector) (i off tR : Nat)
    (hg : getSpace p s A = (R, i, off))
    (htR : R.tail.getD 0 = tR) :
    reserveOOBfallback p s A =
      (setChunk R tR { chunkAt R tR with skipFirstHeader := true },
       some (i, off)) := by
  rw [reserveOOBfallback, hg]
  show (setChunk R (R.tail.getD 0)
    { chunkAt R (R.tail.getD 0) with skipFirstHeader := true },
    some (i, off)) = _
  rw [htR]

/-- The `reserveOOB` fallback preserves the invariant whenever the fallback
branch's precondition holds (no last header, or the aligned payload does not
fit the tail chunk). -/
theorem wf_fallback (p : Params) (s : PolyChunkVector) (size : Nat)
    (hp : WfParams p) (hw : Wf p s) (hsz : size ≠ 0)
    (hcond : s.lastHeader = none ∨
      ∀ t0, s.tail = some t0 →
        (chunkAt s t0).cap <
          (chunkAt s t0).usedCap + roundUpToMultipleOf size p.alignofT) :
    Wf p (reserveOOBfallback p s (roundUpToMultipleOf size p.alignofT)).1 := by
  obtain ⟨s1, t, heq, ht1, htlen, hlay, hafter, hcaps, hfit, hnum, hpres, hdisj⟩ :=
    getSpace_spec p s (roundUpToMultipleOf size p.alignofT) hp hw
  have hu : (chunkAt s1 t).usedCap = 0 := by
    rcases hdisj with h0 | ⟨hseq, hstail, hsfit⟩
    · exact h0
    · subst hseq
      rcases hcond with hn | hnofit
      · exact hw.lastHeaderNone hn t hstail
      · have := hnofit t hstail
        omega
  have hkey := wf_oob_write p s1 t (roundUpToMultipleOf size p.alignofT) hp
    (dvd_roundUp _ _ (by exact hp.2.1)) ht1 htlen hlay hafter hcaps hfit hu
  have hceq : chunkAt ({ setChunk s1 t
      { chunkAt s1 t with
        headers := setA (chunkAt s1 t).headers (chunkAt s1 t).usedCap
          (p.sizeofHeader + roundUpToMultipleOf size p.alignofT),
        usedCap := (chunkAt s1 t).usedCap +
          (p.sizeofHeader + roundUpToMultipleOf size p.alignofT) } with
      lastHeader := some (t, (chunkAt s1 t).usedCap) } : PolyChunkVector) t =
      { chunkAt s1 t with
        headers := setA (chunkAt s1 t).headers (chunkAt s1 t).usedCap
          (p.sizeofHeader + roundUpToMultipleOf size p.alignofT),
        usedCap := (chunkAt s1 t).usedCap +
          (p.sizeofHeader + roundUpToMultipleOf size p.alignofT) } :=
    chunkAt_setChunk_eq _ _ _ htlen
  have hshp := fallback_shape p s (roundUpToMultipleOf size p.alignofT) _ _ _ t
    heq (by show s1.tail.getD 0 = t; rw [ht1]; rfl)
  have hsh := congrArg Prod.fst hshp
  rw [hsh, hceq, setChunk_override]
  exact hkey

/-- `reserveOOB` preserves the invariant. -/
theorem wf_reserveOOB (p : Params) (s : PolyChunkVector) (size : Nat)
    (hp : WfParams p) (hw : Wf p s) :
    Wf p (reserveOOB p s size).1 := by
  by_cases hsz : size = 0
  · subst hsz
    rw [reserveOOB]
    simp only [if_pos rfl]
    exact hw
  · rw [reserveOOB, if_neg hsz]
    cases hlh : s.lastHeader with
    | none =>
      simp only
      exact wf_fallback p s size hp hw hsz (Or.inl hlh)
    | some lh =>
      have ht : s.tail = some lh.1 := hw.lastHeaderTail lh.1 lh.2 (by rw [hlh])
      simp only [ht, Option.getD_some]
      by_cases hfit : (chunkAt s lh.1).usedCap + roundUpToMultipleOf size p.alignofT ≤
          (chunkAt s lh.1).cap
      · rw [if_pos hfit]
        have htlen : lh.1 < s.chunks.length := hw.tailLt lh.1 ht
        have hkey := wf_absorb p s lh.1 lh.2
          (roundUpToMultipleOf size p.alignofT) hp hw (by rw [hlh]) ht
          (dvd_roundUp _ _ hp.2.1) hfit
        have hc1 : chunkAt (setChunk s lh.1
            { chunkAt s lh.1 with
              headers := setA (chunkAt s lh.1).headers lh.2
                (strideAt (chunkAt s lh.1) lh.2 +
                  roundUpToMultipleOf size p.alignofT) }) lh.1 =
            { chunkAt s lh.1 with
              headers := setA (chunkAt s lh.1).headers lh.2
                (strideAt (chunkAt s lh.1) lh.2 +
                  roundUpToMultipleOf size p.alignofT) } :=
          chunkAt_setChunk_eq _ _ _ htlen
        rw [hc1]
        rw [setChunk_setChunk]
        exact hkey
      · rw [if_neg hfit]
        refine wf_fallback p s size hp hw hsz (Or.inr ?_)
        intro t0 ht0
        rw [ht] at ht0
        have : lh.1 = t0 := by simpa using ht0
        subst this
        omega

/-- `pushOOB` preserves the invariant. -/
theorem wf_pushOOB (p : Params) (s : PolyChunkVector) (bytes : List Nat)
    (hp : WfParams p) (hw : Wf p s) :
    Wf p (pushOOB p s bytes).1 := by
  have hres := wf_reserveOOB p s bytes.length hp hw
  rw [pushOOB]
  cases hr : reserveOOB p s bytes.length with
  | mk s1 ptr =>
    rw [hr] at hres
    cases ptr with
    | none => exact hres
    | some io =>
      cases io with
      | mk i off =>
        exact wf_set_data p s1 i _ hres

/-- `pushOOBString` preserves the invariant. -/
theorem wf_pushOOBString (p : Params) (s : PolyChunkVector) (str : List Nat)
    (hp : WfParams p) (hw : Wf p s) :
    Wf p (pushOOBString p s str).1 := by
  have hres := wf_reserveOOB p s (str.length + 1) hp hw
  rw [pushOOBString]
  cases hr : reserveOOB p s (str.length + 1) with
  | mk s1 ptr =>
    rw [hr] at hres
    cases ptr with
    | none => exact hres
    | some io =>
      cases io with
      | mk i off =>
        exact wf_set_data p s1 i _ hres

/-- `clear` preserves the invariant. -/
theorem wf_clear (p : Params) (s : PolyChunkVector) (r : Nat)
    (hp : WfParams p) (hw : Wf p s) :
    Wf p (clear p s r) := by
  obtain ⟨hT, hA, hH, hdH, hdT⟩ := hp
  have hwfresh : ∀ (base : PolyChunkVector) (cc : Nat),
      p.sizeofHeader + p.sizeofT ≤ cc →
      Wf p ({ base with
        chunks := [Chunk.fresh base.nextId cc],
        tail := some 0,
        lastHeader := none,
        numElements := 0,
        nextId := base.nextId + 1 } : PolyChunkVector) := by
    intro base cc hcc
    refine ⟨?_, ?_, ?_, ?_, ?_, ?_, ?_⟩
    · intro t ht
      have h2 : some 0 = some t := ht
      have h3 : t = 0 := by simpa using h2.symm
      simp [h3]
    · constructor
      · intro h; exact absurd h (by simp)
      · intro h; exact absurd h (by simp)
    · intro i hi
      simp only [List.length_singleton] at hi
      have : i = 0 := by omega
      subst this
      exact ⟨[], layout_fresh p _ _, by intro off h; exact absurd h (by simp)⟩
    · intro t ht j hj
      have h2 : some 0 = some t := ht
      have h3 : t = 0 := by simpa using h2.symm
      show (getNth [_] j).usedCap = 0
      cases j with
      | zero => omega
      | succ n =>
        rw [getNth_ge _ _ (by simp)]
        rfl
    · intro i off h
      exact absurd h (by simp)
    · intro h t ht
      have h2 : some 0 = some t := ht
      have h3 : t = 0 := by simpa using h2.symm
      subst h3
      show (getNth [_] 0).usedCap = 0
      rfl
    · intro i hi
      simp only [List.length_singleton] at hi
      have : i = 0 := by omega
      subst this
      exact ⟨by simpa [chunkAt, getNth, Chunk.fresh] using hcc,
        by simp [chunkAt, getNth, Chunk.fresh]⟩
  have hwret : ∀ tl : Option Nat,
      (tl = if (s.chunks.map clearedChunk).isEmpty then none else some 0) →
      Wf p ({ s with
        chunks := s.chunks.map clearedChunk,
        tail := tl,
        lastHeader := none,
        numElements := 0 } : PolyChunkVector) := by
    intro tl htl
    have hcl : ∀ j, chunkAt ({ s with
        chunks := s.chunks.map clearedChunk,
        tail := tl,
        lastHeader := none,
        numElements := 0 } : PolyChunkVector) j = clearedChunk (chunkAt s j) :=
      fun j => getNth_map_cleared _ _
    refine ⟨?_, ?_, ?_, ?_, ?_, ?_, ?_⟩
    · intro t ht
      have h2 : tl = some t := ht
      subst htl
      cases hc : s.chunks with
      | nil => rw [hc] at h2; exact absurd h2 (by simp)
      | cons a l =>
        rw [hc] at h2
        have h3 : t = 0 := by
          by_cases he : (List.map clearedChunk (a :: l)).isEmpty = true
          · simp at he
          · rw [if_neg he] at h2
            simpa using h2.symm
        subst h3
        simp
    · subst htl
      constructor
      · intro h
        have h2 := h
        cases hc : s.chunks with
        | nil => simp [hc]
        | cons a l => rw [hc] at h2; exact absurd h2 (by simp)
      · intro h
        have h2 : s.chunks.map clearedChunk = [] := h
        cases hc : s.chunks with
        | nil => simp [hc]
        | cons a l => rw [hc] at h2; exact absurd h2 (by simp)
    · intro i hi
      refine ⟨[], ?_, ?_⟩
      · rw [hcl i]
        exact layout_cleared p _
      · intro off h
        exact absurd h (by simp)
    · intro t ht j hj
      rw [hcl j]
      rfl
    · intro i off h
      exact absurd h (by simp)
    · intro h t ht
      rw [hcl t]
      rfl
    · intro i hi
      rw [hcl i]
      have hilen : i < s.chunks.length := by
        have h4 : ({ s with
            chunks := s.chunks.map clearedChunk,
            tail := tl,
            lastHeader := none,
            numElements := 0 } : PolyChunkVector).chunks.length =
            s.chunks.length := by simp
        omega
      have := hw.caps i hilen
      exact ⟨this.1, by simp [clearedChunk]⟩
  rw [clear]
  by_cases hr : r ≠ 0
  · rw [if_pos hr]
    by_cases hcond : (s.chunks.map clearedChunk).length = 1 ∧
        r ≤ (chunkAt ({ s with
          chunks := s.chunks.map clearedChunk,
          tail := if (s.chunks.map clearedChunk).isEmpty then none else some 0,
          lastHeader := none,
          numElements := 0 } : PolyChunkVector) 0).cap
    · rw [if_pos hcond]
      exact hwret _ rfl
    · rw [if_neg hcond]
      have hgf : getFreeChunk p
          ({ s with
            chunks := ([] : List Chunk),
            tail := none,
            lastHeader := none,
            numElements := 0 } : PolyChunkVector) r =
          { s with
            chunks := [Chunk.fresh s.nextId
              (roundUpToMultipleOf (max (p.sizeofHeader + p.sizeofT) r)
                p.alignofT)],
            tail := some 0,
            lastHeader := none,
            numElements := 0,
            nextId := s.nextId + 1 } := by
        rw [getFreeChunk]
      rw [hgf]
      exact hwfresh ({ s with
        chunks := ([] : List Chunk),
        tail := none,
        lastHeader := none,
        numElements := 0 } : PolyChunkVector) _
        (le_trans (le_max_left _ _) (roundUp_ge _ _ hA))
  · rw [if_neg hr]
    exact hwret _ rfl

/-- Every operation preserves the invariant. -/
theorem wf_step (p : Params) (s : PolyChunkVector) (op : Op)
    (hp : WfParams p) (hw : Wf p s) (hop : WfOp p op) :
    Wf p (step p s op) := by
  cases op with
  | emplace szD tag bytes => exact wf_emplace p s szD tag bytes hp hw hop.2.1
  | oob bytes => exact wf_pushOOB p s bytes hp hw
  | oobString str => exact wf_pushOOBString p s str hp hw
  | clearOp r => exact wf_clear p s r hp hw

/-- The invariant holds in every reachable state. -/
theorem reachable_wf (p : Params) (s : PolyChunkVector) (hp : WfParams p)
    (hr : Reachable p s) : Wf p s := by
  induction hr with
  | init => exact wf_init p
  | step hr hop ih => exact wf_step p _ _ hp ih hop

/-- Running well-formed operations preserves reachability. -/
theorem reachable_run (p : Params) (s : PolyChunkVector)
    (hr : Reachable p s) :
    ∀ ops : List Op, (∀ op ∈ ops, WfOp p op) → Reachable p (run p s ops) := by
  intro ops
  induction ops generalizing s with
  | nil => intro _; exact hr
  | cons op rest ih =>
    intro hops
    exact ih (step p s op) (Reachable.step hr (hops op (by simp)))
      fun o ho => hops o (by simp [ho])

/-- C8.  Retained-chunk adoption: when the tail chunk `t` lacks space and
the forward walk finds chunk `j`, then `j` is the first chunk after `t`
that is large enough, every chunk strictly between (and `j` itself) has
`usedBytes = 0`, and the emplacement adopts `j` as the new tail without
allocating any chunk (chain length and every chunk's allocation id are
unchanged). -/
theorem claim_C8_retained_adoption (p : Params) (s : PolyChunkVector)
    (szD tag t j : Nat) (bytes : List Nat) (hp : WfParams p)
    (hre : Reachable p s)
    (ht : s.tail = some t)
    (hover : (chunkAt s t).cap < (chunkAt s t).usedCap + (p.sizeofHeader + szD))
    (hfind : findFrom s.chunks t
      (roundUpToMultipleOf
        (max (p.sizeofHeader + p.sizeofT)
          (max (p.sizeofHeader + szD) (chunkAt s t).cap)) p.alignofT) = some j) :
    (t < j ∧ j < s.chunks.length ∧
      roundUpToMultipleOf
        (max (p.sizeofHeader + p.sizeofT)
          (max (p.sizeofHeader + szD) (chunkAt s t).cap)) p.alignofT ≤
        (chunkAt s j).cap ∧
      (∀ k, t < k → k < j → (chunkAt s k).cap <
        roundUpToMultipleOf
          (max (p.sizeofHeader + p.sizeofT)
            (max (p.sizeofHeader + szD) (chunkAt s t).cap)) p.alignofT)) ∧
    (∀ k, t < k → k ≤ j → (chunkAt s k).usedCap = 0) ∧
    (emplace_back p s szD tag bytes).1.tail = some j ∧
    (emplace_back p s szD tag bytes).1.chunks.length = s.chunks.length ∧
    (∀ i, i < s.chunks.length →
      (chunkAt (emplace_back p s szD tag bytes).1 i).id = (chunkAt s i).id) := by
  have hw := reachable_wf p s hp hre
  obtain ⟨hj1, hj2, hj3, hj4⟩ := findFrom_some s.chunks _ t j hfind
  refine ⟨⟨hj1, hj2, hj3, hj4⟩, ?_, ?_⟩
  · intro k hk1 hk2
    exact hw.afterTail t ht k hk1
  · rw [emplace_back, getSpace_adopt p s szD t j ht hover hfind]
    have hceq : chunkAt ({ setChunk s j
        { chunkAt s j with
          headers := setA (chunkAt s j).headers (chunkAt s j).usedCap
            (p.sizeofHeader + szD),
          usedCap := (chunkAt s j).usedCap + (p.sizeofHeader + szD) } with
        tail := some j,
        lastHeader := some (j, (chunkAt s j).usedCap) } : PolyChunkVector) j =
        { chunkAt s j with
          headers := setA (chunkAt s j).headers (chunkAt s j).usedCap
            (p.sizeofHeader + szD),
          usedCap := (chunkAt s j).usedCap + (p.sizeofHeader + szD) } :=
      chunkAt_setChunk_eq _ _ _ hj2
    simp only [hceq]
    simp only [setChunk, setNth_setNth]
    refine ⟨trivial, by simpa using length_setNth s.chunks j _, ?_⟩
    intro i hi
    by_cases hij : i = j
    · subst hij
      show (getNth (setNth s.chunks i _) i).id = (getNth s.chunks i).id
      rw [getNth_setNth_eq s.chunks i _ hi]
      rfl
    · show (getNth (setNth s.chunks j _) i).id = (getNth s.chunks i).id
      rw [getNth_setNth_ne s.chunks i j _ hij]

/-- C8 witness: chunk 0 (16 bytes, 12 used) overflows on a 4-byte
emplacement; the retained empty chunk 1 (capacity 16) is adopted. -/
theorem claim_C8_retained_adoption_witness :
    WfParams pEx ∧
    Reachable pEx sExAdopt ∧
    sExAdopt.tail = some 0 ∧
    (chunkAt sExAdopt 0).cap <
      (chunkAt sExAdopt 0).usedCap + (pEx.sizeofHeader + 4) ∧
    (∀ k, 0 < k → k ≤ 1 → (chunkAt sExAdopt k).usedCap = 0) ∧
    (emplace_back pEx sExAdopt 4 4 [4, 4, 4, 4]).1.tail = some 1 ∧
    (emplace_back pEx sExAdopt 4 4 [4, 4, 4, 4]).1.chunks.length =
      sExAdopt.chunks.length := by
  have hre : Reachable pEx sExAdopt :=
    reachable_run pEx PolyChunkVector.init Reachable.init _ (by decide)
  have h := claim_C8_retained_adoption pEx sExAdopt 4 4 0 1 [4, 4, 4, 4]
    (by decide) hre (by decide) (by decide) (by decide)
  exact ⟨by decide, hre, by decide, by decide, h.2.1, h.2.2.1, h.2.2.2.1⟩

/-- C3.  Header alignment: in every reachable state, every header record
sits at a byte offset that is a multiple of `alignof(T)` and stores a stride
that is a multiple of `alignof(T)`; consequently the payload pointer
returned by `getSpace` inside `emplace_back` (asserted in the source to be
`alignof(T)`-aligned) and the pointer returned by `reserveOOB` are at
`alignof(T)`-multiple offsets, and the header they follow sits at an
`alignof(T)`-multiple offset as well.  (C++ object layout guarantees
`alignof(T) ∣ sizeof(Derived)` for every permitted `Derived`, which is what
keeps the strides — `sizeof(Header) + sizeof(Derived)` — aligned.) -/
theorem claim_C3_header_alignment (p : Params) (s : PolyChunkVector)
    (hp : WfParams p) (hre : Reachable p s) :
    (∀ i, i < s.chunks.length → ∃ rs, Layout p (chunkAt s i) rs ∧
      ∀ r ∈ rs, p.alignofT ∣ r.off ∧ p.alignofT ∣ r.stride) ∧
    (∀ szD tag bytes,
      p.alignofT ∣ (emplace_back p s szD tag bytes).2.2 ∧
      p.alignofT ∣ ((emplace_back p s szD tag bytes).2.2 - p.sizeofHeader)) ∧
    (∀ size s' i off, reserveOOB p s size = (s', some (i, off)) →
      p.alignofT ∣ off) := by
  have hw := reachable_wf p s hp hre
  obtain ⟨hT, hA, hH, hdH, hdT⟩ := hp
  refine ⟨?_, ?_, ?_⟩
  · intro i hi
    obtain ⟨rs, hrs, -⟩ := hw.layout i hi
    exact ⟨rs, hrs, fun r hr =>
      ⟨chainTo_off_dvd hrs.chain (dvd_zero _) r hr,
       chainTo_stride_dvd hrs.chain r hr⟩⟩
  · intro szD tag bytes
    obtain ⟨s1, t, heq, ht1, htlen, hlay, hafter, hcaps, hfit, hnum, hpres, hdisj⟩ :=
      getSpace_spec p s szD ⟨hT, hA, hH, hdH, hdT⟩ hw
    obtain ⟨rs, hrs⟩ := hlay t htlen
    have hdu : p.alignofT ∣ (chunkAt s1 t).usedCap :=
      chainTo_end_dvd hrs.chain (dvd_zero _)
    have hv : (emplace_back p s szD tag bytes).2.2 =
        (chunkAt s1 t).usedCap + p.sizeofHeader := by
      rw [emplace_back, heq]
    rw [hv]
    exact ⟨Nat.dvd_add hdu hdH, by rw [Nat.add_sub_cancel]; exact hdu⟩
  · intro size s' i off hres
    by_cases hsz : size = 0
    · rw [reserveOOB, if_pos hsz] at hres
      simp at hres
    · have hfb : ∀ (s2 : PolyChunkVector) (i2 off2 : Nat),
          reserveOOBfallback p s (roundUpToMultipleOf size p.alignofT) =
            (s2, some (i2, off2)) →
          p.alignofT ∣ off2 := by
        intro s2 i2 off2 hres2
        obtain ⟨s1, t, heq, ht1, htlen, hlay, h5, h6, h7, h8, h9, h10⟩ :=
          getSpace_spec p s (roundUpToMultipleOf size p.alignofT)
            ⟨hT, hA, hH, hdH, hdT⟩ hw
        have hshp := fallback_shape p s (roundUpToMultipleOf size p.alignofT)
          _ _ _ t heq (by show s1.tail.getD 0 = t; rw [ht1]; rfl)
        rw [hshp] at hres2
        have h2 := congrArg Prod.snd hres2
        simp only [Prod.snd] at h2
        have h3 : (chunkAt s1 t).usedCap + p.sizeofHeader = off2 := by
          have := Option.some.inj h2
          exact congrArg Prod.snd this
        obtain ⟨rs, hrs⟩ := hlay t htlen
        have hdu : p.alignofT ∣ (chunkAt s1 t).usedCap :=
          chainTo_end_dvd hrs.chain (dvd_zero _)
        rw [← h3]
        exact Nat.dvd_add hdu hdH
      rw [reserveOOB, if_neg hsz] at hres
      cases hlh : s.lastHeader with
      | none =>
        simp only [hlh] at hres
        exact hfb s' i off hres
      | some lh =>
        simp only [hlh] at hres
        have ht : s.tail = some lh.1 := hw.lastHeaderTail lh.1 lh.2 (by rw [hlh])
        simp only [ht, Option.getD_some] at hres
        by_cases hfit : (chunkAt s lh.1).usedCap +
            roundUpToMultipleOf size p.alignofT ≤ (chunkAt s lh.1).cap
        · rw [if_pos hfit] at hres
          have h2 := congrArg Prod.snd hres
          simp only [Prod.snd] at h2
          have h3 : (chunkAt s lh.1).usedCap = off := by
            have := Option.some.inj h2
            exact congrArg Prod.snd this
          obtain ⟨rs, hrs, -⟩ := hw.layout lh.1 (hw.tailLt lh.1 ht)
          rw [← h3]
          exact chainTo_end_dvd hrs.chain (dvd_zero _)
        · rw [if_neg hfit] at hres
          exact hfb s' i off hres

/-- C3 witness: at the concrete parameters, emplacing into the 16-byte
chunk returns payload offset 12 (multiple of 4, header at offset 0), and a
1-byte OOB push lands at offset 12 (multiple of 4). -/
theorem claim_C3_header_alignment_witness :
    WfParams pEx ∧
    pEx.alignofT ∣ (emplace_back pEx sEx1 4 9 [5, 6, 7, 8]).2.2 ∧
    pEx.alignofT ∣ 12 := by
  have hre : Reachable pEx sEx1 :=
    Reachable.step (Reachable.step Reachable.init (by decide)) (by decide)
  have h := claim_C3_header_alignment pEx sEx1 (by decide) hre
  exact ⟨by decide, (h.2.1 4 9 [5, 6, 7, 8]).1,
    h.2.2 1 (reserveOOB pEx sEx1 1).1 0 12 (by decide)⟩

/-- C6.  `skipFirstHeader` invariant: in every reachable state (a) a chunk's
flag is set only if the chunk's first header — the record at offset 0 — is
an OOB record and not a stored element; (b) the `reserveOOB` fallback branch
(no last header, or the aligned payload does not fit the tail) only ever
writes into a tail chunk that was empty before the write: the OOB header
lands at offset 0 (payload at `sizeof(Header)`), the chunk's used bytes
consist of exactly that record, and the flag is set; (c) `clear` resets the
flag of every chunk to false. -/
theorem claim_C6_skip_leading_header (p : Params) (s : PolyChunkVector)
    (hp : WfParams p) (hre : Reachable p s) :
    (∀ i, i < s.chunks.length → (chunkAt s i).skipFirstHeader = true →
      ∃ rs r rs', Layout p (chunkAt s i) rs ∧ rs = r :: rs' ∧ r.tag = none ∧
        r.off = 0) ∧
    (∀ size, size ≠ 0 →
      (s.lastHeader = none ∨
        ∀ t0, s.tail = some t0 →
          (chunkAt s t0).cap <
            (chunkAt s t0).usedCap + roundUpToMultipleOf size p.alignofT) →
      ∃ s' i, reserveOOB p s size = (s', some (i, p.sizeofHeader)) ∧
        (chunkAt s' i).skipFirstHeader = true ∧
        (chunkAt s' i).usedCap =
          p.sizeofHeader + roundUpToMultipleOf size p.alignofT) ∧
    (∀ r i, (chunkAt (clear p s r) i).skipFirstHeader = false) := by
  have hw := reachable_wf p s hp hre
  obtain ⟨hT, hA, hH, hdH, hdT⟩ := hp
  refine ⟨?_, ?_, ?_⟩
  · intro i hi hskip
    obtain ⟨rs, hrs, -⟩ := hw.layout i hi
    obtain ⟨r, rs', he, htg⟩ := hrs.skipIff.mp hskip
    refine ⟨rs, r, rs', hrs, he, htg, ?_⟩
    have hch := hrs.chain
    rw [he] at hch
    exact chainTo_head_off hch
  · intro size hsz hcond
    have hfb : ∃ s' i, reserveOOBfallback p s
          (roundUpToMultipleOf size p.alignofT) = (s', some (i, p.sizeofHeader)) ∧
        (chunkAt s' i).skipFirstHeader = true ∧
        (chunkAt s' i).usedCap =
          p.sizeofHeader + roundUpToMultipleOf size p.alignofT := by
      obtain ⟨s1, t, heq, ht1, htlen, hlay, hafter, hcaps, hfit, hnum, hpres, hdisj⟩ :=
        getSpace_spec p s (roundUpToMultipleOf size p.alignofT)
          ⟨hT, hA, hH, hdH, hdT⟩ hw
      have hu : (chunkAt s1 t).usedCap = 0 := by
        rcases hdisj with h0 | ⟨hseq, hstail, hsfit⟩
        · exact h0
        · subst hseq
          rcases hcond with hn | hnofit
          · exact hw.lastHeaderNone hn t hstail
          · have := hnofit t hstail
            omega
      have hshp := fallback_shape p s (roundUpToMultipleOf size p.alignofT)
        _ _ _ t heq (by show s1.tail.getD 0 = t; rw [ht1]; rfl)
      have hceq : chunkAt ({ setChunk s1 t
          { chunkAt s1 t with
            headers := setA (chunkAt s1 t).headers (chunkAt s1 t).usedCap
              (p.sizeofHeader + roundUpToMultipleOf size p.alignofT),
            usedCap := (chunkAt s1 t).usedCap +
              (p.sizeofHeader + roundUpToMultipleOf size p.alignofT) } with
          lastHeader := some (t, (chunkAt s1 t).usedCap) } : PolyChunkVector) t =
          { chunkAt s1 t with
            headers := setA (chunkAt s1 t).headers (chunkAt s1 t).usedCap
              (p.sizeofHeader + roundUpToMultipleOf size p.alignofT),
            usedCap := (chunkAt s1 t).usedCap +
              (p.sizeofHeader + roundUpToMultipleOf size p.alignofT) } :=
        chunkAt_setChunk_eq _ _ _ htlen
      rw [hceq] at hshp
      rw [hu] at hshp
      simp only [Nat.zero_add] at hshp
      refine ⟨_, t, hshp, ?_, ?_⟩
      · rw [chunkAt_setChunk_eq]
        show t < _
        show t < (setNth s1.chunks t _).length
        rw [length_setNth]
        exact htlen
      · rw [chunkAt_setChunk_eq]
        show t < _
        show t < (setNth s1.chunks t _).length
        rw [length_setNth]
        exact htlen
    rcases hcond with hn | hnofit
    · rw [reserveOOB, if_neg hsz]
      simp only [hn]
      exact hfb
    · rw [reserveOOB, if_neg hsz]
      cases hlh : s.lastHeader with
      | none =>
        simp only
        exact hfb
      | some lh =>
        have ht : s.tail = some lh.1 := hw.lastHeaderTail lh.1 lh.2 (by rw [hlh])
        simp only [ht, Option.getD_some]
        rw [if_neg (by have := hnofit lh.1 ht; omega)]
        exact hfb
  · intro r i
    have hmap : ∀ tl : Option Nat,
        (chunkAt ({ s with
          chunks := s.chunks.map clearedChunk,
          tail := tl,
          lastHeader := none,
          numElements := 0 } : PolyChunkVector) i).skipFirstHeader = false := by
      intro tl
      show (getNth (s.chunks.map clearedChunk) i).skipFirstHeader = false
      rw [getNth_map_cleared]
      rfl
    rw [clear]
    by_cases hr : r ≠ 0
    · rw [if_pos hr]
      by_cases hcond2 : (s.chunks.map clearedChunk).length = 1 ∧
          r ≤ (chunkAt ({ s with
            chunks := s.chunks.map clearedChunk,
            tail := if (s.chunks.map clearedChunk).isEmpty then none else some 0,
            lastHeader := none,
            numElements := 0 } : PolyChunkVector) 0).cap
      · rw [if_pos hcond2]
        exact hmap _
      · rw [if_neg hcond2]
        rw [show getFreeChunk p
            ({ s with
              chunks := ([] : List Chunk),
              tail := none,
              lastHeader := none,
              numElements := 0 } : PolyChunkVector) r =
            { s with
              chunks := [Chunk.fresh s.nextId
                (roundUpToMultipleOf (max (p.sizeofHeader + p.sizeofT) r)
                  p.alignofT)],
              tail := some 0,
              lastHeader := none,
              numElements := 0,
              nextId := s.nextId + 1 } from by rw [getFreeChunk]]
        show (getNth [_] i).skipFirstHeader = false
        cases i with
        | zero => rfl
        | succ n =>
          rw [getNth_ge _ _ (by simp)]
          rfl
    · rw [if_neg hr]
      exact hmap _

/-- C6 witness: pushing 3 OOB bytes into the empty default-constructed
container takes the fallback branch (no last header): the payload lands at
offset `sizeof(Header) = 8` of a chunk whose flag is set and whose used
bytes are exactly the one OOB record (8 + 4 bytes). -/
theorem claim_C6_skip_leading_header_witness :
    WfParams pEx ∧ (3 : Nat) ≠ 0 ∧
    ∃ s' i, reserveOOB pEx PolyChunkVector.init 3 =
        (s', some (i, pEx.sizeofHeader)) ∧
      (chunkAt s' i).skipFirstHeader = true ∧
      (chunkAt s' i).usedCap =
        pEx.sizeofHeader + roundUpToMultipleOf 3 pEx.alignofT :=
  ⟨by decide, by decide,
    (claim_C6_skip_leading_header pEx PolyChunkVector.init (by decide)
      Reachable.init).2.1 3 (by decide) (Or.inl rfl)⟩

/-! ### Address stability (claim C1) -/

theorem preserves_refl (s : PolyChunkVector) : Preserves s s :=
  ⟨Nat.le_refl _, fun _ _ =>
    ⟨rfl, rfl, Nat.le_refl _, fun _ _ => rfl, List.take_length _⟩⟩

theorem preserves_of_eq (s s1 : PolyChunkVector)
    (hlen : s.chunks.length ≤ s1.chunks.length)
    (h : ∀ i, i < s.chunks.length → chunkAt s1 i = chunkAt s i) :
    Preserves s s1 := by
  refine ⟨hlen, fun i hi => ?_⟩
  rw [h i hi]
  exact ⟨rfl, rfl, Nat.le_refl _, fun _ _ => rfl, List.take_length _⟩

theorem preserves_congr (s s' s'' : PolyChunkVector)
    (h : s''.chunks = s'.chunks) (hps : Preserves s s') : Preserves s s'' := by
  obtain ⟨hlen, hc⟩ := hps
  have hci : ∀ i, chunkAt s'' i = chunkAt s' i := by
    intro i
    show getNth s''.chunks i = getNth s'.chunks i
    rw [h]
  refine ⟨by rw [show s''.chunks.length = s'.chunks.length from by rw [h]]; exact hlen,
    fun i hi => ?_⟩
  rw [hci i]
  exact hc i hi

theorem preserves_trans (s₀ s₁ s₂ : PolyChunkVector)
    (h₁ : Preserves s₀ s₁) (h₂ : Preserves s₁ s₂) : Preserves s₀ s₂ := by
  obtain ⟨hl₁, hc₁⟩ := h₁
  obtain ⟨hl₂, hc₂⟩ := h₂
  refine ⟨Nat.le_trans hl₁ hl₂, fun i hi => ?_⟩
  obtain ⟨hid₁, hcap₁, hu₁, hd₁, ho₁⟩ := hc₁ i hi
  obtain ⟨hid₂, hcap₂, hu₂, hd₂, ho₂⟩ := hc₂ i (Nat.lt_of_lt_of_le hi hl₁)
  refine ⟨hid₂.trans hid₁, hcap₂.trans hcap₁, Nat.le_trans hu₁ hu₂, ?_, ?_⟩
  · intro off hoff
    rw [hd₂ off (Nat.lt_of_lt_of_le hoff hu₁), hd₁ off hoff]
  · have hle : (chunkAt s₀ i).objs.length ≤ (chunkAt s₁ i).objs.length := by
      have h2 := congrArg List.length ho₁
      rw [List.length_take] at h2
      omega
    calc (chunkAt s₂ i).objs.take (chunkAt s₀ i).objs.length
        = ((chunkAt s₂ i).objs.take (chunkAt s₁ i).objs.length).take
            (chunkAt s₀ i).objs.length := by
          rw [List.take_take, Nat.min_eq_left hle]
      _ = (chunkAt s₁ i).objs.take (chunkAt s₀ i).objs.length := by rw [ho₂]
      _ = (chunkAt s₀ i).objs := ho₁

/-- Replacing one chunk preserves address stability relative to a base state
`s` provided the new chunk keeps the identity, capacity, monotone used
region, old live objects, and the bytes inside the base state's used region
of that chain position. -/
theorem preserves_setChunk_write (s s1 : PolyChunkVector) (t : Nat) (c : Chunk)
    (hps : Preserves s s1)
    (hid : c.id = (chunkAt s1 t).id)
    (hcap : c.cap = (chunkAt s1 t).cap)
    (hu : (chunkAt s1 t).usedCap ≤ c.usedCap)
    (hd : t < s.chunks.length → ∀ off, off < (chunkAt s t).usedCap →
      lookupA c.data off = lookupA (chunkAt s1 t).data off)
    (ho : c.objs.take (chunkAt s1 t).objs.length = (chunkAt s1 t).objs) :
    Preserves s (setChunk s1 t c) := by
  obtain ⟨hlen, hcomp⟩ := hps
  refine ⟨?_, fun i hi => ?_⟩
  · show s.chunks.length ≤ (setNth s1.chunks t c).length
    rw [length_setNth]
    exact hlen
  · obtain ⟨hid₁, hcap₁, hu₁, hd₁, ho₁⟩ := hcomp i hi
    by_cases hit : i = t
    · subst hit
      have h1 : chunkAt (setChunk s1 i c) i = c :=
        chunkAt_setChunk_eq _ _ _ (Nat.lt_of_lt_of_le hi hlen)
      rw [h1]
      refine ⟨hid.trans hid₁, hcap.trans hcap₁, Nat.le_trans hu₁ hu, ?_, ?_⟩
      · intro off hoff
        rw [hd hi off hoff, hd₁ off hoff]
      · have hle : (chunkAt s i).objs.length ≤ (chunkAt s1 i).objs.length := by
          have h2 := congrArg List.length ho₁
          rw [List.length_take] at h2
          omega
        calc c.objs.take (chunkAt s i).objs.length
            = (c.objs.take (chunkAt s1 i).objs.length).take
                (chunkAt s i).objs.length := by
              rw [List.take_take, Nat.min_eq_left hle]
          _ = (chunkAt s1 i).objs.take (chunkAt s i).objs.length := by rw [ho]
          _ = (chunkAt s i).objs := ho₁
    · have h1 : chunkAt (setChunk s1 t c) i = chunkAt s1 i :=
        chunkAt_setChunk_ne _ _ _ _ hit
      rw [h1]
      exact ⟨hid₁, hcap₁, hu₁, hd₁, ho₁⟩

/-- The header-plus-element write done by `getSpace`/`emplace_back` on the
selected tail chunk preserves address stability as long as the written data
agrees with the old data below the base state's used region. -/
theorem preserves_elem_write (p : Params) (s s1 : PolyChunkVector)
    (t szD tag : Nat) (d : List (Nat × Nat))
    (hP1 : Preserves s s1)
    (hd : t < s.chunks.length → ∀ off, off < (chunkAt s t).usedCap →
      lookupA d off = lookupA (chunkAt s1 t).data off) :
    Preserves s
      { setChunk s1 t
          { chunkAt s1 t with
            headers := setA (chunkAt s1 t).headers (chunkAt s1 t).usedCap
              (p.sizeofHeader + szD),
            usedCap := (chunkAt s1 t).usedCap + (p.sizeofHeader + szD),
            data := d,
            objs := (chunkAt s1 t).objs ++ [((chunkAt s1 t).usedCap, tag)] } with
        lastHeader := some (t, (chunkAt s1 t).usedCap),
        numElements := s1.numElements + 1 } :=
  preserves_congr s _ _ rfl
    (preserves_setChunk_write s s1 t _ hP1 rfl rfl (Nat.le_add_right _ _) hd
      (List.take_left _ _))

/-- The bare header write done by `getSpace` for an OOB reservation
preserves address stability (it touches no data bytes and no objects). -/
theorem preserves_header_write (p : Params) (s s1 : PolyChunkVector) (t a : Nat)
    (hP1 : Preserves s s1) :
    Preserves s
      { setChunk s1 t
          { chunkAt s1 t with
            headers := setA (chunkAt s1 t).headers (chunkAt s1 t).usedCap
              (p.sizeofHeader + a),
            usedCap := (chunkAt s1 t).usedCap + (p.sizeofHeader + a) } with
        lastHeader := some (t, (chunkAt s1 t).usedCap) } :=
  preserves_congr s _ _ rfl
    (preserves_setChunk_write s s1 t _ hP1 rfl rfl (Nat.le_add_right _ _)
      (fun _ _ _ => rfl) (List.take_length _))

/-- `emplace_back` never moves or modifies previously stored bytes. -/
theorem preserves_emplace (p : Params) (s : PolyChunkVector) (szD tag : Nat)
    (bytes : List Nat) (hp : WfParams p) (hw : Wf p s) :
    Preserves s (emplace_back p s szD tag bytes).1 := by
  obtain ⟨s1, t, heq, ht1, htlen, hlay, hafter, hcaps, hfit, hnum, hpp, hdisj⟩ :=
    getSpace_spec p s szD hp hw
  obtain ⟨hpres, hlen⟩ := hpp
  have hP1 : Preserves s s1 := preserves_of_eq s s1 hlen hpres
  rw [emplace_back, heq]
  have hceq : chunkAt ({ setChunk s1 t
      { chunkAt s1 t with
        headers := setA (chunkAt s1 t).headers (chunkAt s1 t).usedCap
          (p.sizeofHeader + szD),
        usedCap := (chunkAt s1 t).usedCap + (p.sizeofHeader + szD) } with
      lastHeader := some (t, (chunkAt s1 t).usedCap) } : PolyChunkVector) t =
      { chunkAt s1 t with
        headers := setA (chunkAt s1 t).headers (chunkAt s1 t).usedCap
          (p.sizeofHeader + szD),
        usedCap := (chunkAt s1 t).usedCap + (p.sizeofHeader + szD) } :=
    chunkAt_setChunk_eq _ _ _ htlen
  simp only [hceq]
  simp only [setChunk, setNth_setNth, Nat.add_sub_cancel]
  exact preserves_elem_write p s s1 t szD tag
    (writeBytes (chunkAt s1 t).data ((chunkAt s1 t).usedCap + p.sizeofHeader)
      bytes) hP1
    (fun ht0 off hoff =>
      lookupA_writeBytes_lt _ _ _ _ (by rw [hpres t ht0]; omega))

/-- `reserveOOB` either returns null with the state untouched, or returns a
reservation pointer into a state that preserves address stability, the
reserved offset lying at or above the old used region of its chunk. -/
theorem reserveOOB_preserves (p : Params) (s : PolyChunkVector) (size : Nat)
    (hp : WfParams p) (hw : Wf p s) :
    reserveOOB p s size = (s, none) ∨
    ∃ s1 i off, reserveOOB p s size = (s1, some (i, off)) ∧
      Preserves s s1 ∧
      (i < s.chunks.length → (chunkAt s i).usedCap ≤ off) := by
  by_cases hsz : size = 0
  · left
    rw [reserveOOB, if_pos hsz]
  · right
    have hfb : ∃ s1 i off,
        reserveOOBfallback p s (roundUpToMultipleOf size p.alignofT) =
          (s1, some (i, off)) ∧ Preserves s s1 ∧
        (i < s.chunks.length → (chunkAt s i).usedCap ≤ off) := by
      obtain ⟨s1, t, heq, ht1, htlen, hlay, hafter, hcaps, hfit, hnum, hpp, hdisj⟩ :=
        getSpace_spec p s (roundUpToMultipleOf size p.alignofT) hp hw
      obtain ⟨hpres, hlen⟩ := hpp
      have hP1 : Preserves s s1 := preserves_of_eq s s1 hlen hpres
      have hPG := preserves_header_write p s s1 t
        (roundUpToMultipleOf size p.alignofT) hP1
      have hshp := fallback_shape p s (roundUpToMultipleOf size p.alignofT)
        _ _ _ t heq (by show s1.tail.getD 0 = t; rw [ht1]; rfl)
      refine ⟨_, t, (chunkAt s1 t).usedCap + p.sizeofHeader, hshp, ?_, ?_⟩
      · exact preserves_setChunk_write s _ t _ hPG rfl rfl (Nat.le_refl _)
          (fun _ _ _ => rfl) (List.take_length _)
      · intro ht0
        rw [hpres t ht0]
        exact Nat.le_add_right _ _
    rw [reserveOOB, if_neg hsz]
    cases hlh : s.lastHeader with
    | none =>
      simp only
      exact hfb
    | some lh =>
      have ht : s.tail = some lh.1 := hw.lastHeaderTail lh.1 lh.2 (by rw [hlh])
      simp only [ht, Option.getD_some]
      by_cases hfit : (chunkAt s lh.1).usedCap +
          roundUpToMultipleOf size p.alignofT ≤ (chunkAt s lh.1).cap
      · rw [if_pos hfit]
        refine ⟨_, lh.1, (chunkAt s lh.1).usedCap, rfl, ?_,
          fun _ => Nat.le_refl _⟩
        refine preserves_setChunk_write s _ lh.1 _ ?_ rfl rfl
          (Nat.le_add_right _ _) (fun _ _ _ => rfl) (List.take_length _)
        exact preserves_setChunk_write s s lh.1 _ (preserves_refl s) rfl rfl
          (Nat.le_refl _) (fun _ _ _ => rfl) (List.take_length _)
      · rw [if_neg hfit]
        exact hfb

/-- `pushOOB` never moves or modifies previously stored bytes. -/
theorem preserves_pushOOB (p : Params) (s : PolyChunkVector) (bytes : List Nat)
    (hp : WfParams p) (hw : Wf p s) :
    Preserves s (pushOOB p s bytes).1 := by
  rcases reserveOOB_preserves p s bytes.length hp hw with
    hnone | ⟨s1, i, off, heq, hP, hoff⟩
  · rw [pushOOB, hnone]
    exact preserves_refl s
  · rw [pushOOB, heq]
    exact preserves_setChunk_write s s1 i _ hP rfl rfl (Nat.le_refl _)
      (fun hi off' hoff' =>
        lookupA_writeBytes_lt _ _ _ _ (Nat.lt_of_lt_of_le hoff' (hoff hi)))
      (List.take_length _)

/-- `pushOOBString` never moves or modifies previously stored bytes. -/
theorem preserves_pushOOBString (p : Params) (s : PolyChunkVector)
    (str : List Nat) (hp : WfParams p) (hw : Wf p s) :
    Preserves s (pushOOBString p s str).1 := by
  rcases reserveOOB_preserves p s (str.length + 1) hp hw with
    hnone | ⟨s1, i, off, heq, hP, hoff⟩
  · rw [pushOOBString, hnone]
    exact preserves_refl s
  · rw [pushOOBString, heq]
    exact preserves_setChunk_write s s1 i _ hP rfl rfl (Nat.le_refl _)
      (fun hi off' hoff' =>
        lookupA_writeBytes_lt _ _ _ _ (Nat.lt_of_lt_of_le hoff' (hoff hi)))
      (List.take_length _)

/-- Every non-`clear` operation preserves address stability. -/
theorem preserves_step (p : Params) (s : PolyChunkVector) (op : Op)
    (hp : WfParams p) (hw : Wf p s) (hnc : op.isClear = false) :
    Preserves s (step p s op) := by
  cases op with
  | emplace szD tag bytes => exact preserves_emplace p s szD tag bytes hp hw
  | oob bytes => exact preserves_pushOOB p s bytes hp hw
  | oobString str => exact preserves_pushOOBString p s str hp hw
  | clearOp r => simp [Op.isClear] at hnc

/-- Any run of well-formed non-`clear` operations preserves address
stability. -/
theorem preserves_run (p : Params) (ops : List Op) :
    ∀ s : PolyChunkVector, WfParams p → Reachable p s →
    (∀ op ∈ ops, WfOp p op ∧ op.isClear = false) →
    Preserves s (run p s ops) := by
  induction ops with
  | nil =>
    intro s _ _ _
    exact preserves_refl s
  | cons op ops ih =>
    intro s hp hre hops
    have h1 := hops op (List.mem_cons_self _ _)
    have hw := reachable_wf p s hp hre
    have hstep := preserves_step p s op hp hw h1.2
    have hrest := ih (step p s op) hp (Reachable.step hre h1.1)
      (fun o ho => hops o (List.mem_cons_of_mem _ ho))
    exact preserves_trans s (step p s op) (run p (step p s op) ops) hstep hrest

/-- C1.  Address stability: starting from any reachable state, running any
sequence of well-formed `emplace_back` / `pushOOB` / `pushOOBString`
operations (no `clear`) keeps every existing chunk at its chain position
with the same identity (`malloc` address) and allocation size — nothing is
reallocated or resized — leaves every byte inside each chunk's old used
region unmodified (so previously stored elements and OOB payloads keep
their address and content), only grows each chunk's used region, and keeps
the old live objects as a stable prefix of the new ones. -/
theorem claim_C1_address_stability (p : Params) (s : PolyChunkVector)
    (ops : List Op) (hp : WfParams p) (hre : Reachable p s)
    (hops : ∀ op ∈ ops, WfOp p op ∧ op.isClear = false) :
    s.chunks.length ≤ (run p s ops).chunks.length ∧
    ∀ i, i < s.chunks.length →
      (chunkAt (run p s ops) i).id = (chunkAt s i).id ∧
      (chunkAt (run p s ops) i).cap = (chunkAt s i).cap ∧
      (chunkAt s i).usedCap ≤ (chunkAt (run p s ops) i).usedCap ∧
      (∀ off, off < (chunkAt s i).usedCap →
        lookupA (chunkAt (run p s ops) i).data off =
          lookupA (chunkAt s i).data off) ∧
      (chunkAt (run p s ops) i).objs.take (chunkAt s i).objs.length =
        (chunkAt s i).objs :=
  preserves_run p ops s hp hre hops

/-- C1 witness: after an absorbed OOB push and an overflowing emplacement on
the one-element container, byte 8 of chunk 0 (the first byte of the stored
element) still reads its original value. -/
theorem claim_C1_address_stability_witness :
    WfParams pEx ∧
    (∀ op ∈ ([Op.oob [1, 2], Op.emplace 4 9 [5, 6, 7, 8]] : List Op),
      WfOp pEx op ∧ op.isClear = false) ∧
    lookupA (chunkAt (run pEx sEx1
        [Op.oob [1, 2], Op.emplace 4 9 [5, 6, 7, 8]]) 0).data 8 =
      lookupA (chunkAt sEx1 0).data 8 := by
  have hre : Reachable pEx sEx1 :=
    Reachable.step (Reachable.step Reachable.init (by decide)) (by decide)
  have h := claim_C1_address_stability pEx sEx1
    [Op.oob [1, 2], Op.emplace 4 9 [5, 6, 7, 8]] (by decide) hre (by decide)
  exact ⟨by decide, by decide, (h.2 0 (by decide)).2.2.2.1 8 (by decide)⟩

/-! ### Clear round-trip destruction (claim C2) -/

theorem chainTo_nil_eq {p : Params} {hs : List (Nat × Nat)} {pos e : Nat}
    (h : ChainTo p hs pos e []) : pos = e := by
  cases h
  rfl

theorem chainTo_cons_inv {p : Params} {hs : List (Nat × Nat)} {pos e : Nat}
    {r : Rec} {rs : List Rec} (h : ChainTo p hs pos e (r :: rs)) :
    r.off = pos ∧ lookupA hs pos = some r.stride ∧
    p.sizeofHeader ≤ r.stride ∧ p.alignofT ∣ r.stride ∧
    ChainTo p hs (pos + r.stride) e rs := by
  cases h with
  | cons pos e r rs h1 h2 h3 h4 h5 => exact ⟨h1, h2, h3, h4, h5⟩

/-- Projecting the offsets out of a fully tagged record list's object
table. -/
theorem filterMap_all_tagged : ∀ rs : List Rec, (∀ r ∈ rs, r.tag ≠ none) →
    (rs.filterMap (fun r => r.tag.map (fun tg => (r.off, tg)))).map Prod.fst =
      rs.map Rec.off := by
  intro rs
  induction rs with
  | nil => intro _; rfl
  | cons r rs ih =>
    intro h
    cases htg : r.tag with
    | none => exact absurd htg (h r (List.mem_cons_self _ _))
    | some tg =>
      simp [List.filterMap_cons, htg,
        ih (fun x hx => h x (List.mem_cons_of_mem _ hx))]

/-- The destructive walk of `clear` inside one chunk visits exactly the
record offsets of the chain it starts on, given enough fuel. -/
theorem clearWalk_records (p : Params) (c : Chunk) (hH : 1 ≤ p.sizeofHeader) :
    ∀ rs : List Rec, ∀ pos fuel, ChainTo p c.headers pos c.usedCap rs →
      rs.length ≤ fuel → clearWalk c pos fuel = rs.map Rec.off := by
  intro rs
  induction rs with
  | nil =>
    intro pos fuel hch _
    have hpe : pos = c.usedCap := chainTo_nil_eq hch
    cases fuel with
    | zero => rfl
    | succ f =>
      show (if pos < c.usedCap then pos :: clearWalk c (pos + strideAt c pos) f
        else []) = []
      rw [if_neg (by omega)]
  | cons r rs ih =>
    intro pos fuel hch hfuel
    obtain ⟨h1, h2, h3, h4, h5⟩ := chainTo_cons_inv hch
    cases fuel with
    | zero => simp at hfuel
    | succ f =>
      have hlt : pos < c.usedCap := by
        have := chainTo_le h5
        omega
      have hstr : strideAt c pos = r.stride := by
        rw [strideAt, h2]
        rfl
      show (if pos < c.usedCap then pos :: clearWalk c (pos + strideAt c pos) f
        else []) = (r :: rs).map Rec.off
      rw [if_pos hlt, hstr, ih (pos + r.stride) f h5 (by simpa using hfuel),
        List.map_cons, h1]

/-- Per chunk, the headers `clear` walks are exactly the live elements'
headers: the leading OOB record (if any) is hopped over by
`skipFirstHeader`, and every other record is a live element. -/
theorem clearChunkVisits_eq (p : Params) (c : Chunk) (rs : List Rec)
    (hp : WfParams p) (hL : Layout p c rs) :
    clearChunkVisits c = chunkElems c := by
  obtain ⟨hT, hA, hH, hdH, hdT⟩ := hp
  have hch := hL.chain
  cases hskip : c.skipFirstHeader with
  | true =>
    obtain ⟨r0, rs', hrs, htag⟩ := hL.skipIff.mp hskip
    subst hrs
    obtain ⟨h1, h2, h3, h4, h5⟩ := chainTo_cons_inv hch
    rw [Nat.zero_add] at h5
    have hstr : strideAt c 0 = r0.stride := by
      rw [strideAt, h2]
      rfl
    have hlen : rs'.length ≤ c.usedCap + 1 := by
      have := chainTo_len_le hH h5
      omega
    have hwalk := clearWalk_records p c hH rs' r0.stride (c.usedCap + 1) h5 hlen
    have helems : chunkElems c = rs'.map Rec.off := by
      rw [chunkElems, hL.objsEq]
      simp [List.filterMap_cons, htag,
        filterMap_all_tagged rs' (fun x hx => hL.restElems x (by simpa using hx))]
    have hstart : (if c.skipFirstHeader then strideAt c 0 else 0) =
        strideAt c 0 := by
      rw [hskip]
      simp
    show clearWalk c (if c.skipFirstHeader then strideAt c 0 else 0)
      (c.usedCap + 1) = chunkElems c
    rw [hstart, hstr, hwalk, helems]
  | false =>
    have hall : ∀ x ∈ rs, x.tag ≠ none := by
      intro x hx
      cases hrs2 : rs with
      | nil =>
        rw [hrs2] at hx
        simp at hx
      | cons r0 rs' =>
        rw [hrs2] at hx
        rcases List.mem_cons.mp hx with hx0 | hxs
        · subst hx0
          intro hnone
          have := hL.skipIff.mpr ⟨x, rs', hrs2, hnone⟩
          rw [hskip] at this
          exact Bool.noConfusion this
        · exact hL.restElems x (show x ∈ rs.drop 1 from by
            rw [hrs2]; simpa using hxs)
    have hlen : rs.length ≤ c.usedCap + 1 := by
      have := chainTo_len_le hH hch
      omega
    have hwalk := clearWalk_records p c hH rs 0 (c.usedCap + 1) hch hlen
    have helems : chunkElems c = rs.map Rec.off := by
      rw [chunkElems, hL.objsEq]
      exact filterMap_all_tagged rs hall
    have hstart : (if c.skipFirstHeader then strideAt c 0 else 0) = 0 := by
      rw [hskip]
      simp
    show clearWalk c (if c.skipFirstHeader then strideAt c 0 else 0)
      (c.usedCap + 1) = chunkElems c
    rw [hstart, hwalk, helems]

/-- Unrolling `elemsFromAux` into a `flatMap` over chunk indices. -/
theorem elemsFromAux_eq_range (s : PolyChunkVector) :
    ∀ d i, s.chunks.length ≤ i + d →
      elemsFromAux s i d =
        (List.range' i (s.chunks.length - i)).flatMap
          (fun j => (chunkElems (chunkAt s j)).map (fun off => (j, off))) := by
  intro d
  induction d with
  | zero =>
    intro i hle
    rw [show s.chunks.length - i = 0 from by omega]
    rfl
  | succ d ih =>
    intro i hle
    by_cases hi : i < s.chunks.length
    · show (if i < s.chunks.length then
          (chunkElems (chunkAt s i)).map (fun off => (i, off)) ++
            elemsFromAux s (i + 1) d
        else []) = _
      rw [if_pos hi,
        show s.chunks.length - i = (s.chunks.length - (i + 1)) + 1 from by omega,
        List.range'_succ, List.flatMap_cons, ih (i + 1) (by omega)]
    · show (if i < s.chunks.length then
          (chunkElems (chunkAt s i)).map (fun off => (i, off)) ++
            elemsFromAux s (i + 1) d
        else []) = _
      rw [if_neg hi, show s.chunks.length - i = 0 from by omega]
      rfl

theorem liveElems_eq_range (s : PolyChunkVector) :
    liveElems s = (List.range s.chunks.length).flatMap
      (fun j => (chunkElems (chunkAt s j)).map (fun off => (j, off))) := by
  rw [liveElems, elemsFrom,
    elemsFromAux_eq_range s (s.chunks.length + 1) 0 (by omega),
    List.range_eq_range', Nat.sub_zero]

/-- The destructor pass of `clear` destroys exactly the live elements, in
chain order. -/
theorem clearDestroys_eq_live (p : Params) (s : PolyChunkVector)
    (hp : WfParams p) (hw : Wf p s) :
    clearDestroys s = liveElems s := by
  have hper : ∀ i, clearChunkVisits (chunkAt s i) = chunkElems (chunkAt s i) := by
    intro i
    by_cases hi : i < s.chunks.length
    · obtain ⟨rs, hL, -⟩ := hw.layout i hi
      exact clearChunkVisits_eq p (chunkAt s i) rs hp hL
    · have hcd : chunkAt s i = cdefault := getNth_ge s.chunks i (by omega)
      rw [hcd]
      rfl
  rw [clearDestroys, liveElems_eq_range]
  have hfe : (fun i => (clearChunkVisits (chunkAt s i)).map
        (fun pos => (i, pos))) =
      (fun j => (chunkElems (chunkAt s j)).map (fun off => (j, off))) := by
    funext i
    rw [hper i]
  rw [hfe]

theorem tail_head_aux (l : List Chunk) :
    (if l.isEmpty then none else some 0) =
      (if 0 < l.length then (some 0 : Option Nat) else none) := by
  cases l with
  | nil => rfl
  | cons x xs => simp

/-- Bookkeeping state after any `clear` call: no element counted, every
chunk's used bytes zero, tail back at the head, last header dropped. -/
theorem clear_resets (p : Params) (s : PolyChunkVector) (r : Nat) :
    CzPoly.size (clear p s r) = 0 ∧
    (∀ i, (chunkAt (clear p s r) i).usedCap = 0) ∧
    (clear p s r).tail = headIdx (clear p s r) ∧
    (clear p s r).lastHeader = none := by
  have hmapu : ∀ i, (getNth (s.chunks.map clearedChunk) i).usedCap = 0 := by
    intro i
    rw [getNth_map_cleared]
    rfl
  rw [clear]
  by_cases hr : r ≠ 0
  · rw [if_pos hr]
    by_cases hcond2 : (s.chunks.map clearedChunk).length = 1 ∧
        r ≤ (chunkAt ({ s with
          chunks := s.chunks.map clearedChunk,
          tail := if (s.chunks.map clearedChunk).isEmpty then none else some 0,
          lastHeader := none,
          numElements := 0 } : PolyChunkVector) 0).cap
    · rw [if_pos hcond2]
      refine ⟨rfl, hmapu, ?_, rfl⟩
      show (if (s.chunks.map clearedChunk).isEmpty then none else some 0) =
        if 0 < (s.chunks.map clearedChunk).length then some 0 else none
      exact tail_head_aux _
    · rw [if_neg hcond2]
      rw [show getFreeChunk p
          ({ s with
            chunks := ([] : List Chunk),
            tail := none,
            lastHeader := none,
            numElements := 0 } : PolyChunkVector) r =
          { s with
            chunks := [Chunk.fresh s.nextId
              (roundUpToMultipleOf (max (p.sizeofHeader + p.sizeofT) r)
                p.alignofT)],
            tail := some 0,
            lastHeader := none,
            numElements := 0,
            nextId := s.nextId + 1 } from by rw [getFreeChunk]]
      refine ⟨rfl, ?_, rfl, rfl⟩
      intro i
      show (getNth [_] i).usedCap = 0
      cases i with
      | zero => rfl
      | succ n =>
        rw [getNth_ge _ _ (by simp)]
        rfl
  · rw [if_neg hr]
    refine ⟨rfl, hmapu, ?_, rfl⟩
    show (if (s.chunks.map clearedChunk).isEmpty then none else some 0) =
      if 0 < (s.chunks.map clearedChunk).length then some 0 else none
    exact tail_head_aux _

/-- C2.  Clear round-trip destruction: in every reachable state the
destructive pass of `clear` invokes the dynamically dispatched destructor
exactly once per live element — the walked header positions are exactly the
header offsets of the objects registered at construction time, in chain
order, so constructor and destructor counts match per concrete type, no
element is skipped or destroyed twice, and no destructor runs on OOB
bytes — and afterwards (for any `resetToOneChunk` argument) the element
count is 0, every chunk's used bytes are 0, the tail is back at the head,
and `m_lastHeader` is null. -/
theorem claim_C2_clear_destruction (p : Params) (s : PolyChunkVector) (r : Nat)
    (hp : WfParams p) (hre : Reachable p s) :
    clearDestroys s = liveElems s ∧
    CzPoly.size (clear p s r) = 0 ∧
    (∀ i, (chunkAt (clear p s r) i).usedCap = 0) ∧
    (clear p s r).tail = headIdx (clear p s r) ∧
    (clear p s r).lastHeader = none := by
  have hw := reachable_wf p s hp hre
  exact ⟨clearDestroys_eq_live p s hp hw, (clear_resets p s r).1,
    (clear_resets p s r).2.1, (clear_resets p s r).2.2.1,
    (clear_resets p s r).2.2.2⟩

/-- C2 witness: on the one-element container, `clear 0` destroys exactly
the one live element and resets the bookkeeping. -/
theorem claim_C2_clear_destruction_witness :
    WfParams pEx ∧
    clearDestroys sEx1 = liveElems sEx1 ∧
    CzPoly.size (clear pEx sEx1 0) = 0 ∧
    (chunkAt (clear pEx sEx1 0) 0).usedCap = 0 ∧
    (clear pEx sEx1 0).lastHeader = none := by
  have hre : Reachable pEx sEx1 :=
    Reachable.step (Reachable.step Reachable.init (by decide)) (by decide)
  have h := claim_C2_clear_destruction pEx sEx1 0 (by decide) hre
  exact ⟨by decide, h.1, h.2.1, h.2.2.1 0, h.2.2.2.2⟩

/-! ### Iteration completeness and order (claim C5) -/

theorem findValid_none (s : PolyChunkVector) (fuel pos : Nat) :
    findValid s fuel (none, pos) = (none, pos) := by
  cases fuel <;> rfl

theorem findValid_succ (s : PolyChunkVector) (f i pos : Nat) :
    findValid s (f + 1) (some i, pos) =
      if pos < (chunkAt s i).usedCap ∧
          (0 < pos ∨ (chunkAt s i).skipFirstHeader = false) then (some i, pos)
      else if (chunkAt s i).usedCap ≤
          (if pos < (chunkAt s i).usedCap then
            pos + strideAt (chunkAt s i) pos else pos) then
        findValid s f (nextIdx s i, 0)
      else findValid s f (some i,
        (if pos < (chunkAt s i).usedCap then
          pos + strideAt (chunkAt s i) pos else pos)) := rfl

theorem iterToList_none (s : PolyChunkVector) (fuel pos : Nat) :
    iterToList s fuel (none, pos) = [] := by
  cases fuel <;> rfl

theorem iterToList_succ (s : PolyChunkVector) (f i pos : Nat) :
    iterToList s (f + 1) (some i, pos) =
      (i, pos) :: iterToList s f (iterSucc s (some i, pos)) := rfl

theorem iterSucc_some (s : PolyChunkVector) (i pos : Nat) :
    iterSucc s (some i, pos) =
      findValid s (findFuel s) (some i, pos + strideAt (chunkAt s i) pos) := rfl

theorem fvSpecAux_ge (s : PolyChunkVector) (j : Nat)
    (h : s.chunks.length ≤ j) : ∀ d, fvSpecAux s j d = (none, 0) := by
  intro d
  cases d with
  | zero => rfl
  | succ d2 =>
    simp only [fvSpecAux]
    rw [if_neg (by omega)]

theorem fvSpecAux_congr (s : PolyChunkVector) :
    ∀ d d' j, s.chunks.length ≤ j + d → s.chunks.length ≤ j + d' →
      fvSpecAux s j d = fvSpecAux s j d' := by
  intro d
  induction d with
  | zero =>
    intro d' j h h'
    rw [fvSpecAux_ge s j (by omega) 0, fvSpecAux_ge s j (by omega) d']
  | succ d ih =>
    intro d' j h h'
    cases d' with
    | zero =>
      rw [fvSpecAux_ge s j (by omega) (d + 1), fvSpecAux_ge s j (by omega) 0]
    | succ d2 =>
      by_cases hj : j < s.chunks.length
      · simp only [fvSpecAux]
        rw [if_pos hj, if_pos hj]
        cases hce : chunkElems (chunkAt s j) with
        | nil => exact ih d2 (j + 1) (by omega) (by omega)
        | cons e es => rfl
      · rw [fvSpecAux_ge s j (by omega) (d + 1), fvSpecAux_ge s j (by omega) (d2 + 1)]

theorem fvSpec_ge (s : PolyChunkVector) (i : Nat) (h : s.chunks.length ≤ i) :
    fvSpec s i = (none, 0) :=
  fvSpecAux_ge s i h _

theorem fvSpec_step_empty (s : PolyChunkVector) (i : Nat)
    (hi : i < s.chunks.length) (hce : chunkElems (chunkAt s i) = []) :
    fvSpec s i = fvSpec s (i + 1) := by
  have h1 : fvSpecAux s i (s.chunks.length + 1) =
      fvSpecAux s (i + 1) s.chunks.length := by
    simp only [fvSpecAux]
    rw [if_pos hi, hce]
  rw [fvSpec, fvSpec, h1]
  exact fvSpecAux_congr s s.chunks.length (s.chunks.length + 1) (i + 1)
    (by omega) (by omega)

theorem fvSpec_cons (s : PolyChunkVector) (i : Nat)
    (hi : i < s.chunks.length) (e : Nat) (es : List Nat)
    (hce : chunkElems (chunkAt s i) = e :: es) :
    fvSpec s i = (some i, e) := by
  rw [fvSpec]
  simp only [fvSpecAux]
  rw [if_pos hi, hce]

theorem elemsFrom_eq_range (s : PolyChunkVector) (i : Nat) :
    elemsFrom s i = (List.range' i (s.chunks.length - i)).flatMap
      (fun j => (chunkElems (chunkAt s j)).map (fun off => (j, off))) :=
  elemsFromAux_eq_range s (s.chunks.length + 1) i (by omega)

theorem elemsFrom_ge (s : PolyChunkVector) (i : Nat)
    (h : s.chunks.length ≤ i) : elemsFrom s i = [] := by
  rw [elemsFrom_eq_range, show s.chunks.length - i = 0 from by omega]
  rfl

theorem elemsFrom_lt (s : PolyChunkVector) (i : Nat)
    (hi : i < s.chunks.length) :
    elemsFrom s i = (chunkElems (chunkAt s i)).map (fun off => (i, off)) ++
      elemsFrom s (i + 1) := by
  rw [elemsFrom_eq_range s i, elemsFrom_eq_range s (i + 1),
    show s.chunks.length - i = (s.chunks.length - (i + 1)) + 1 from by omega,
    List.range'_succ, List.flatMap_cons]

/-- Shape analysis of one laid-out chunk, as the iterator sees it: either it
holds no live element (it is empty, or one leading OOB record covers all its
used bytes), or its live elements are a nonempty record chain reaching the
used mark, starting at offset 0 (no OOB, flag clear) or right after the
leading OOB record (flag set). -/
theorem chunk_shape (p : Params) (c : Chunk) (rs : List Rec)
    (hp : WfParams p) (hL : Layout p c rs) :
    (chunkElems c = [] ∧
      (c.usedCap = 0 ∨ (∃ r0, rs = [r0] ∧ r0.tag = none ∧
        lookupA c.headers 0 = some r0.stride ∧
        p.sizeofHeader ≤ r0.stride ∧ r0.stride = c.usedCap ∧
        c.skipFirstHeader = true))) ∨
    (∃ ers pos, chunkElems c = ers.map Rec.off ∧
      ChainTo p c.headers pos c.usedCap ers ∧ ers ≠ [] ∧
      ((pos = 0 ∧ c.skipFirstHeader = false) ∨
       (∃ r0 : Rec, r0.tag = none ∧ lookupA c.headers 0 = some r0.stride ∧
         pos = r0.stride ∧ 0 < pos ∧ pos < c.usedCap ∧
         c.skipFirstHeader = true))) := by
  obtain ⟨hT, hA, hH, hdH, hdT⟩ := hp
  have hch := hL.chain
  cases hrs : rs with
  | nil =>
    left
    subst hrs
    constructor
    · rw [chunkElems, hL.objsEq]
      rfl
    · left
      have := chainTo_nil_eq hch
      omega
  | cons r0 rs₁ =>
    subst hrs
    obtain ⟨h1, h2, h3, h4, h5⟩ := chainTo_cons_inv hch
    rw [Nat.zero_add] at h5
    by_cases htag : r0.tag = none
    · have hskip : c.skipFirstHeader = true :=
        hL.skipIff.mpr ⟨r0, rs₁, rfl, htag⟩
      have htags₁ : ∀ x ∈ rs₁, x.tag ≠ none := fun x hx =>
        hL.restElems x (by simpa using hx)
      have hel : chunkElems c = rs₁.map Rec.off := by
        rw [chunkElems, hL.objsEq]
        simp [List.filterMap_cons, htag, filterMap_all_tagged rs₁ htags₁]
      cases hrs₁ : rs₁ with
      | nil =>
        left
        refine ⟨by rw [hel, hrs₁]; rfl,
          Or.inr ⟨r0, rfl, htag, h2, h3, ?_, hskip⟩⟩
        exact chainTo_nil_eq (hrs₁ ▸ h5)
      | cons r1 rs₂ =>
        right
        obtain ⟨g1, g2, g3, g4, g5⟩ := chainTo_cons_inv (hrs₁ ▸ h5)
        have hlt : r0.stride < c.usedCap := by
          have := chainTo_le g5
          omega
        exact ⟨rs₁, r0.stride, hel, h5, by rw [hrs₁]; simp,
          Or.inr ⟨r0, htag, h2, rfl, by omega, hlt, hskip⟩⟩
    · have hskip : c.skipFirstHeader = false := by
        cases hsk : c.skipFirstHeader
        · rfl
        · obtain ⟨r', rs', he, htg⟩ := hL.skipIff.mp hsk
          injection he with ha hb
          rw [← ha] at htg
          exact absurd htg htag
      have htags : ∀ x ∈ r0 :: rs₁, x.tag ≠ none := by
        intro x hx
        rcases List.mem_cons.mp hx with rfl | hx'
        · exact htag
        · exact hL.restElems x (by simpa using hx')
      have hel : chunkElems c = (r0 :: rs₁).map Rec.off := by
        rw [chunkElems, hL.objsEq]
        exact filterMap_all_tagged _ htags
      right
      exact ⟨r0 :: rs₁, 0, hel, hch, by simp, Or.inl ⟨rfl, hskip⟩⟩

/-- Entering the chain at chunk `i` with offset 0, `findValid` lands exactly
on the first live element from chunk `i` onwards (or the end iterator),
hopping over empty chunks and chunk-leading OOB records. -/
theorem findValid_entry (p : Params) (s : PolyChunkVector) (hp : WfParams p)
    (hw : Wf p s) : ∀ d i fuel, s.chunks.length ≤ i + d →
    2 * d + 1 ≤ fuel → findValid s fuel (idxOpt s i, 0) = fvSpec s i := by
  intro d
  induction d with
  | zero =>
    intro i fuel hle hfuel
    rw [show idxOpt s i = none from by rw [idxOpt, if_neg (by omega)],
      findValid_none, fvSpec_ge s i (by omega)]
  | succ d ih =>
    intro i fuel hle hfuel
    by_cases hi : i < s.chunks.length
    case neg =>
      rw [show idxOpt s i = none from by rw [idxOpt, if_neg hi],
        findValid_none, fvSpec_ge s i (by omega)]
    case pos =>
      obtain ⟨rs, hL, -⟩ := hw.layout i hi
      obtain ⟨f, rfl⟩ : ∃ f, fuel = f + 1 := ⟨fuel - 1, by omega⟩
      rw [show idxOpt s i = some i from by rw [idxOpt, if_pos hi],
        findValid_succ]
      rcases chunk_shape p (chunkAt s i) rs hp hL with
        ⟨hel, hcase⟩ | ⟨ers, pos, hel, hchn, hne, hcase⟩
      · rcases hcase with huc | ⟨r0, hrs0, htag, hlk, hge, hst, hskip⟩
        · rw [if_neg (by rintro ⟨hcl, -⟩; omega)]
          rw [show (if (0 : Nat) < (chunkAt s i).usedCap then
              0 + strideAt (chunkAt s i) 0 else 0) = 0 from by
            rw [if_neg (by omega)]]
          rw [if_pos (by omega), show nextIdx s i = idxOpt s (i + 1) from rfl,
            ih (i + 1) f (by omega) (by omega)]
          exact (fvSpec_step_empty s i hi hel).symm
        · have hgt : 0 < (chunkAt s i).usedCap := by
            have hH := hp.2.2.1
            omega
          rw [if_neg (by
            rintro ⟨-, h2⟩
            rcases h2 with h2 | h2
            · omega
            · rw [hskip] at h2
              exact Bool.noConfusion h2)]
          rw [show (if (0 : Nat) < (chunkAt s i).usedCap then
              0 + strideAt (chunkAt s i) 0 else 0) = (chunkAt s i).usedCap from by
            rw [if_pos hgt, Nat.zero_add, strideAt, hlk]
            exact hst]
          rw [if_pos (Nat.le_refl _), show nextIdx s i = idxOpt s (i + 1) from rfl,
            ih (i + 1) f (by omega) (by omega)]
          exact (fvSpec_step_empty s i hi hel).symm
      · have hfv : fvSpec s i = (some i, pos) := by
          cases hers : ers with
          | nil => exact absurd hers hne
          | cons e es =>
            rw [fvSpec_cons s i hi e.off (es.map Rec.off) (by rw [hel, hers]; rfl),
              chainTo_head_off (hers ▸ hchn)]
        rcases hcase with ⟨hpos0, hskip⟩ | ⟨r0, htag, hlk0, hpos, hposgt, hposlt, hskip⟩
        · have hgt : 0 < (chunkAt s i).usedCap := by
            cases hers : ers with
            | nil => exact absurd hers hne
            | cons e es =>
              obtain ⟨g1, g2, g3, g4, g5⟩ := chainTo_cons_inv (hers ▸ hchn)
              have := chainTo_le g5
              have hH := hp.2.2.1
              omega
          rw [if_pos ⟨hgt, Or.inr hskip⟩, hfv, hpos0]
        · rw [if_neg (by
            rintro ⟨-, h2⟩
            rcases h2 with h2 | h2
            · omega
            · rw [hskip] at h2
              exact Bool.noConfusion h2)]
          have hgt : 0 < (chunkAt s i).usedCap := by omega
          rw [show (if (0 : Nat) < (chunkAt s i).usedCap then
              0 + strideAt (chunkAt s i) 0 else 0) = pos from by
            rw [if_pos hgt, Nat.zero_add, strideAt, hlk0]
            exact hpos.symm]
          rw [if_neg (by omega)]
          obtain ⟨f2, rfl⟩ : ∃ f2, f = f2 + 1 := ⟨f - 1, by omega⟩
          rw [findValid_succ, if_pos ⟨hposlt, Or.inl hposgt⟩]
          exact hfv.symm

/-- Iterating from the first element record of a chunk's element chain
yields exactly those records, then continues with the elements of the later
chunks. -/
theorem iter_chunk (p : Params) (s : PolyChunkVector) (hp : WfParams p)
    (hw : Wf p s) (i : Nat) (hi : i < s.chunks.length)
    (hcont : ∀ fu, (elemsFrom s (i + 1)).length < fu →
      iterToList s fu (fvSpec s (i + 1)) = elemsFrom s (i + 1)) :
    ∀ ers : List Rec, ∀ r pos fu,
      ChainTo p (chunkAt s i).headers pos (chunkAt s i).usedCap (r :: ers) →
      (r :: ers).length + (elemsFrom s (i + 1)).length < fu →
      iterToList s fu (some i, pos) =
        (r :: ers).map (fun q => (i, q.off)) ++ elemsFrom s (i + 1) := by
  intro ers
  induction ers with
  | nil =>
    intro r pos fu hch hfu
    obtain ⟨h1, h2, h3, h4, h5⟩ := chainTo_cons_inv hch
    have hend : pos + r.stride = (chunkAt s i).usedCap := chainTo_nil_eq h5
    obtain ⟨f, rfl⟩ : ∃ f, fu = f + 1 := ⟨fu - 1, by omega⟩
    rw [iterToList_succ, iterSucc_some,
      show strideAt (chunkAt s i) pos = r.stride from by rw [strideAt, h2]; rfl,
      hend, show findFuel s = 2 * s.chunks.length + 1 + 1 from rfl,
      findValid_succ]
    rw [if_neg (by rintro ⟨hcl, -⟩; omega)]
    rw [show (if (chunkAt s i).usedCap < (chunkAt s i).usedCap then
        (chunkAt s i).usedCap + strideAt (chunkAt s i) (chunkAt s i).usedCap
      else (chunkAt s i).usedCap) = (chunkAt s i).usedCap from by
      rw [if_neg (by omega)]]
    rw [if_pos (Nat.le_refl _), show nextIdx s i = idxOpt s (i + 1) from rfl,
      findValid_entry p s hp hw s.chunks.length (i + 1)
        (2 * s.chunks.length + 1) (by omega) (by omega),
      hcont f (by simp only [List.length_cons] at hfu; omega)]
    simp [h1]
  | cons r2 ers ih =>
    intro r pos fu hch hfu
    obtain ⟨h1, h2, h3, h4, h5⟩ := chainTo_cons_inv hch
    obtain ⟨g1, g2, g3, g4, g5⟩ := chainTo_cons_inv h5
    have hlt : pos + r.stride < (chunkAt s i).usedCap := by
      have := chainTo_le g5
      have hH := hp.2.2.1
      omega
    obtain ⟨f, rfl⟩ : ∃ f, fu = f + 1 := ⟨fu - 1, by omega⟩
    rw [iterToList_succ, iterSucc_some,
      show strideAt (chunkAt s i) pos = r.stride from by rw [strideAt, h2]; rfl,
      show findFuel s = 2 * s.chunks.length + 1 + 1 from rfl, findValid_succ]
    rw [if_pos ⟨hlt, Or.inl (by have hH := hp.2.2.1; omega)⟩]
    rw [ih r2 (pos + r.stride) f h5
      (by simp only [List.length_cons] at hfu ⊢; omega)]
    simp [h1]

/-- Iterating from the first live element at or after chunk `i` yields
exactly the live elements from chunk `i` on, in order. -/
theorem iter_from (p : Params) (s : PolyChunkVector) (hp : WfParams p)
    (hw : Wf p s) : ∀ d i, s.chunks.length ≤ i + d →
    ∀ fu, (elemsFrom s i).length < fu →
      iterToList s fu (fvSpec s i) = elemsFrom s i := by
  intro d
  induction d with
  | zero =>
    intro i hle fu hfu
    rw [fvSpec_ge s i (by omega), elemsFrom_ge s i (by omega)]
    exact iterToList_none s fu 0
  | succ d ih =>
    intro i hle fu hfu
    by_cases hi : i < s.chunks.length
    case neg =>
      rw [fvSpec_ge s i (by omega), elemsFrom_ge s i (by omega)]
      exact iterToList_none s fu 0
    case pos =>
      obtain ⟨rs, hL, -⟩ := hw.layout i hi
      have helem := elemsFrom_lt s i hi
      rcases chunk_shape p (chunkAt s i) rs hp hL with
        ⟨hel, -⟩ | ⟨ers, pos, hel, hchn, hne, -⟩
      · rw [fvSpec_step_empty s i hi hel, helem, hel]
        simp only [List.map_nil, List.nil_append]
        exact ih (i + 1) (by omega) fu
          (by rw [helem, hel] at hfu; simpa using hfu)
      · cases hers : ers with
        | nil => exact absurd hers hne
        | cons e es =>
          subst hers
          have hfv : fvSpec s i = (some i, pos) := by
            rw [fvSpec_cons s i hi e.off (es.map Rec.off) (by rw [hel]; rfl),
              chainTo_head_off hchn]
          have hbound : (e :: es).length + (elemsFrom s (i + 1)).length < fu := by
            rw [helem, hel] at hfu
            simp only [List.length_append, List.length_map] at hfu
            omega
          rw [hfv, iter_chunk p s hp hw i hi
            (fun fu2 hfu2 => ih (i + 1) (by omega) fu2 hfu2) es e pos fu hchn
            hbound, helem, hel, List.map_map]
          rfl

theorem foldl_add_usedCap : ∀ l : List Chunk, ∀ n : Nat,
    l.foldl (fun a c => a + c.usedCap) n = n + (l.map Chunk.usedCap).sum := by
  intro l
  induction l with
  | nil =>
    intro n
    simp
  | cons x xs ih =>
    intro n
    show xs.foldl (fun a c => a + c.usedCap) (n + x.usedCap) = _
    rw [ih (n + x.usedCap), List.map_cons, List.sum_cons]
    omega

theorem sumUsed_eq (s : PolyChunkVector) :
    sumUsed s = (s.chunks.map Chunk.usedCap).sum := by
  rw [sumUsed, foldl_add_usedCap]
  exact Nat.zero_add _

theorem getNth_eq_getElem : ∀ (l : List Chunk) (i : Nat) (h : i < l.length),
    getNth l i = l[i] := by
  intro l
  induction l with
  | nil =>
    intro i h
    simp at h
  | cons x xs ih =>
    intro i h
    cases i with
    | zero => rfl
    | succ n =>
      rw [List.getElem_cons_succ]
      exact ih n (by simpa using h)

theorem chunkElems_len_le (p : Params) (c : Chunk) (rs : List Rec)
    (hp : WfParams p) (hL : Layout p c rs) :
    (chunkElems c).length ≤ c.usedCap := by
  have h1 : (chunkElems c).length ≤ rs.length := by
    rw [chunkElems, hL.objsEq, List.length_map]
    exact List.length_filterMap_le _ _
  have h2 := chainTo_len_le hp.2.2.1 hL.chain
  omega

theorem elemsFrom_len_le (p : Params) (s : PolyChunkVector) (hp : WfParams p)
    (hw : Wf p s) : ∀ d i, s.chunks.length ≤ i + d →
      (elemsFrom s i).length ≤ ((s.chunks.drop i).map Chunk.usedCap).sum := by
  intro d
  induction d with
  | zero =>
    intro i hle
    rw [elemsFrom_ge s i (by omega)]
    simp
  | succ d ih =>
    intro i hle
    by_cases hi : i < s.chunks.length
    · obtain ⟨rs, hL, -⟩ := hw.layout i hi
      have hdrop : s.chunks.drop i = chunkAt s i :: s.chunks.drop (i + 1) := by
        rw [List.drop_eq_getElem_cons hi, ← getNth_eq_getElem s.chunks i hi]
        rfl
      rw [elemsFrom_lt s i hi, hdrop, List.map_cons, List.sum_cons,
        List.length_append, List.length_map]
      have hc := chunkElems_len_le p (chunkAt s i) rs hp hL
      have hr := ih (i + 1) (by omega)
      omega
    · rw [elemsFrom_ge s i (by omega)]
      simp

/-- Full traversal from `begin()` to `end()` yields exactly the live
elements, in insertion order. -/
theorem iterAll_eq_live (p : Params) (s : PolyChunkVector) (hp : WfParams p)
    (hw : Wf p s) : iterAll s = liveElems s := by
  have hb : beginIt s = fvSpec s 0 := by
    rw [beginIt, show headIdx s = idxOpt s 0 from rfl]
    exact findValid_entry p s hp hw s.chunks.length 0 (findFuel s) (by omega)
      (by show 2 * s.chunks.length + 1 ≤ 2 * s.chunks.length + 2; omega)
  have hlen : (elemsFrom s 0).length < sumUsed s + 1 := by
    have h1 := elemsFrom_len_le p s hp hw s.chunks.length 0 (by omega)
    have h2 : ((s.chunks.drop 0).map Chunk.usedCap).sum = sumUsed s := by
      rw [List.drop_zero, sumUsed_eq]
    omega
  rw [iterAll, hb]
  exact iter_from p s hp hw s.chunks.length 0 (by omega) (sumUsed s + 1) hlen

/-- C5.  Iteration completeness and order: in every reachable state, the
`begin()`-to-`end()` traversal visits exactly the live elements of the
container, in insertion order — empty (retained) chunks are passed over
without yielding, a chunk-leading OOB record (`skipFirstHeader` set) is
skipped, and absorbed OOB bytes are never yielded since the iterator jumps
whole strides. -/
theorem claim_C5_iteration (p : Params) (s : PolyChunkVector)
    (hp : WfParams p) (hre : Reachable p s) :
    iterAll s = liveElems s :=
  iterAll_eq_live p s hp (reachable_wf p s hp hre)

/-- C5 witness: two chunks are filled, the container is cleared
non-destructively (both chunks retained, empty), and one element is emplaced
into the adopted third chunk; the traversal passes over the two empty
chunks and yields exactly that one element. -/
theorem claim_C5_iteration_witness :
    WfParams pEx ∧
    iterAll (run pEx PolyChunkVector.init
      [Op.clearOp 16, Op.emplace 12 1 (List.replicate 12 7),
       Op.emplace 20 2 (List.replicate 20 8), Op.clearOp 0,
       Op.emplace 20 3 (List.replicate 20 9)]) =
      liveElems (run pEx PolyChunkVector.init
        [Op.clearOp 16, Op.emplace 12 1 (List.replicate 12 7),
         Op.emplace 20 2 (List.replicate 20 8), Op.clearOp 0,
         Op.emplace 20 3 (List.replicate 20 9)]) ∧
    liveElems (run pEx PolyChunkVector.init
      [Op.clearOp 16, Op.emplace 12 1 (List.replicate 12 7),
       Op.emplace 20 2 (List.replicate 20 8), Op.clearOp 0,
       Op.emplace 20 3 (List.replicate 20 9)]) = [(2, 0)] ∧
    (run pEx PolyChunkVector.init
      [Op.clearOp 16, Op.emplace 12 1 (List.replicate 12 7),
       Op.emplace 20 2 (List.replicate 20 8), Op.clearOp 0,
       Op.emplace 20 3 (List.replicate 20 9)]).chunks.length = 3 ∧
    (chunkAt (run pEx PolyChunkVector.init
      [Op.clearOp 16, Op.emplace 12 1 (List.replicate 12 7),
       Op.emplace 20 2 (List.replicate 20 8), Op.clearOp 0,
       Op.emplace 20 3 (List.replicate 20 9)]) 0).usedCap = 0 := by
  have hre : Reachable pEx (run pEx PolyChunkVector.init
      [Op.clearOp 16, Op.emplace 12 1 (List.replicate 12 7),
       Op.emplace 20 2 (List.replicate 20 8), Op.clearOp 0,
       Op.emplace 20 3 (List.replicate 20 9)]) :=
    reachable_run pEx PolyChunkVector.init Reachable.init _ (by decide)
  exact ⟨by decide, claim_C5_iteration pEx _ (by decide) hre, by decide,
    by decide, by decide⟩

end CzPoly
